import Mathlib

/-!
Verification development for the `sbfnj` compiler pipeline
(a minimal pointer/tape language: assembler `o1.rs`, tree builder /
loop optimizer / tree interpreter `o2.rs`, native code generator `llvm.rs`).

The Rust source is shallowly embedded: `i32` values are modelled as `Int`
(with explicit 32-bit wrapping where the source uses `wrapping_add`),
`u8` cells as `Nat` with mod-256 arithmetic, `usize` as `Nat` with
mod-2^64 wrapping, fallible or panicking code as `Option`/`Except`,
and possibly non-terminating interpretation as fuelled evaluators.
-/

set_option maxHeartbeats 1000000

namespace Sbfnj

/-- 32-bit two's-complement truncation: models Rust `i32` wrapping results. -/
def wrap32 (n : Int) : Int := ((n + 2 ^ 31) % 2 ^ 32) - 2 ^ 31

/-- Rust `n as i8` for an `i32` value `n`. -/
def asI8 (n : Int) : Int := ((n + 2 ^ 7) % 2 ^ 8) - 2 ^ 7

/-! ## Flat instructions (`o1.rs`, `enum Inst`) -/

/-- `o1::Inst`: flat jump-addressed instructions produced by the assembler. -/
inductive Inst where
  | PtrInc (n : Int)
  | ValInc (n : Int)
  | LoopStart (target : Nat)
  | LoopEnd (target : Nat)
  | Output
  | Input
deriving DecidableEq, Repr

/-! ## Assembler (`o1::compile`) -/

/-- `o1::State`: the pending run-length accumulator of the assembler. -/
inductive AState where
  | NoneSt
  | PtrArithm (n : Int)
  | ValArithm (n : Int)
deriving DecidableEq, Repr

/-- Assembler parse errors (`eyre` errors raised by `o1::compile`). -/
inductive AErr where
  | unmatchedClose
  | unmatchedOpen
deriving DecidableEq, Repr

/-- Flush a pending accumulator run onto the instruction list
(the `match state` blocks of `o1::compile`). -/
def flushProg (prog : List Inst) (st : AState) : List Inst :=
  match st with
  | .NoneSt => prog
  | .PtrArithm n => prog ++ [.PtrInc n]
  | .ValArithm n => prog ++ [.ValInc n]

/-- The loop of `o1::compile`: one step per source byte, carrying the
emitted program, the accumulator state and the stack of pending
`LoopStart` indices.  Source bytes: 62 is the cursor-right symbol,
60 cursor-left, 43 cell-increment, 45 cell-decrement, 91 loop-open,
93 loop-close, 46 output, 44 input; everything else is skipped. -/
def o1go : List Nat → List Inst → AState → List Nat → Except AErr (List Inst)
  | [], prog, st, stack =>
    if stack.isEmpty then .ok (flushProg prog st) else .error .unmatchedOpen
  | c :: cs, prog, st, stack =>
    if c = 62 then
      match st with
      | .PtrArithm n => o1go cs prog (.PtrArithm (n + 1)) stack
      | .ValArithm n => o1go cs (prog ++ [.ValInc n]) (.PtrArithm 1) stack
      | .NoneSt => o1go cs prog (.PtrArithm 1) stack
    else if c = 60 then
      match st with
      | .PtrArithm n => o1go cs prog (.PtrArithm (n - 1)) stack
      | .ValArithm n => o1go cs (prog ++ [.ValInc n]) (.PtrArithm (-1)) stack
      | .NoneSt => o1go cs prog (.PtrArithm (-1)) stack
    else if c = 43 then
      match st with
      | .ValArithm n => o1go cs prog (.ValArithm (n + 1)) stack
      | .PtrArithm n => o1go cs (prog ++ [.PtrInc n]) (.ValArithm 1) stack
      | .NoneSt => o1go cs prog (.ValArithm 1) stack
    else if c = 45 then
      match st with
      | .ValArithm n => o1go cs prog (.ValArithm (n - 1)) stack
      | .PtrArithm n => o1go cs (prog ++ [.PtrInc n]) (.ValArithm (-1)) stack
      | .NoneSt => o1go cs prog (.ValArithm (-1)) stack
    else if c = 91 then
      let prog := flushProg prog st
      o1go cs (prog ++ [.LoopStart 0]) .NoneSt (prog.length :: stack)
    else if c = 93 then
      let prog := flushProg prog st
      match stack with
      | [] => .error .unmatchedClose
      | start :: rest =>
        let prog := prog ++ [.LoopEnd (start + 1)]
        o1go cs (prog.set start (.LoopStart prog.length)) .NoneSt rest
    else if c = 46 then
      o1go cs (flushProg prog st ++ [.Output]) .NoneSt stack
    else if c = 44 then
      o1go cs (flushProg prog st ++ [.Input]) .NoneSt stack
    else
      o1go cs prog st stack

/-- `o1::compile`: assemble a source byte stream into flat instructions. -/
def o1compile (src : List Nat) : Except AErr (List Inst) :=
  o1go src [] .NoneSt []

/-! ## Statement tree (`o2.rs`, `enum Stmt`) and tree builder -/

/-- `o2::Stmt`: the nested statement tree. -/
inductive Stmt where
  | PtrInc (n : Int)
  | ValInc (n : Int)
  | Loop (body : List Stmt)
  | Output
  | Input

mutual

/-- Rust `Debug` rendering of a statement (`{body:?}` in the optimizer's
diagnostic `println!`). -/
def Stmt.debugStr : Stmt → String
  | .PtrInc n => "PtrInc(" ++ toString n ++ ")"
  | .ValInc n => "ValInc(" ++ toString n ++ ")"
  | .Loop body => "Loop(" ++ Stmt.debugListStr body ++ ")"
  | .Output => "Output"
  | .Input => "Input"

/-- Rust `Debug` rendering of a `Vec<Stmt>`. -/
def Stmt.debugListStr (l : List Stmt) : String :=
  "[" ++ Stmt.debugItems l ++ "]"

/-- Comma-separated items of a `Vec<Stmt>` `Debug` rendering. -/
def Stmt.debugItems : List Stmt → String
  | [] => ""
  | [x] => Stmt.debugStr x
  | x :: y :: rest => Stmt.debugStr x ++ ", " ++ Stmt.debugItems (y :: rest)

end

/-- `o2::compile_rec`, fuelled: consumes the flat instruction stream,
returning the statements built at the current level together with the
unconsumed remainder (a `LoopEnd` terminates the level).  The fuel is an
upper bound on the number of instructions consumed; `o2compile` passes
the list length, which always suffices. -/
def compileRecF : Nat → List Inst → List Stmt × List Inst
  | 0, l => ([], l)
  | _ + 1, [] => ([], [])
  | _ + 1, .LoopEnd _ :: rest => ([], rest)
  | f + 1, .LoopStart _ :: rest =>
    (.Loop (compileRecF f rest).1 ::
        (compileRecF f (compileRecF f rest).2).1,
      (compileRecF f (compileRecF f rest).2).2)
  | f + 1, .PtrInc n :: rest =>
    (.PtrInc n :: (compileRecF f rest).1, (compileRecF f rest).2)
  | f + 1, .ValInc n :: rest =>
    (.ValInc n :: (compileRecF f rest).1, (compileRecF f rest).2)
  | f + 1, .Output :: rest =>
    (.Output :: (compileRecF f rest).1, (compileRecF f rest).2)
  | f + 1, .Input :: rest =>
    (.Input :: (compileRecF f rest).1, (compileRecF f rest).2)

/-- `o2::compile`: rebuild the statement tree from the flat program. -/
def o2compile (prog : List Inst) : List Stmt :=
  (compileRecF prog.length prog).1

/-! ## Symbolic values (`o2.rs`, `enum SymExVal`) -/

/-- `o2::SymExVal`: the optimizer's symbolic expression grammar. -/
inductive SymExVal where
  | Const (n : Int)
  | Cell (n : Int)
  | Add (lhs rhs : SymExVal)
deriving DecidableEq, Repr

/-- `SymExVal::simplify`.  The source contains two `todo!()` branches
(`Cell` combined with `Const`, and any non-`Const` right operand); these
panics are modelled as `none`. -/
def SymExVal.simplify : SymExVal → Option SymExVal
  | .Add lhs rhs => do
    let lhs ← lhs.simplify
    let rhs ← rhs.simplify
    match lhs, rhs with
    | .Const lv, .Const rv => some (.Const (wrap32 (lv + rv)))
    | .Cell _, .Const _ => none
    | .Add llhs lrhs, .Const rv =>
      match lrhs with
      | .Const lv => some (.Add llhs (.Const (wrap32 (lv + rv))))
      | _ => some (.Add (.Add llhs lrhs) (.Const rv))
    | _, _ => none
  | v => some v

/-- The `Add` impl for `SymExVal`: `a + b = Add(a, b).simplify()`
(propagating the possible `todo!()` panic). -/
def SymExVal.addVal (a b : SymExVal) : Option SymExVal :=
  SymExVal.simplify (.Add a b)

/-- `o2::SymExInfo`. -/
structure SymExInfo where
  ptr_delta : Int
  memory_delta : List (Int × SymExVal)
deriving DecidableEq, Repr

/-- `BTreeMap::get` on the association-list model of `memory_delta`. -/
def mapGet (m : List (Int × SymExVal)) (k : Int) : Option SymExVal :=
  match m with
  | [] => none
  | (k', v) :: rest => if k' = k then some v else mapGet rest k

/-- In-place update of the entry at key `k` (models `BTreeMap::get_mut`
followed by assignment). -/
def mapSet (m : List (Int × SymExVal)) (k : Int) (v : SymExVal) :
    List (Int × SymExVal) :=
  match m with
  | [] => []
  | (k', v') :: rest =>
    if k' = k then (k', v) :: rest else (k', v') :: mapSet rest k v

/-- Result of `o2::symbolic_execution`: a normal result, a recoverable
`eyre` error (nested loop / impure body), or a panic from a `todo!()`
inside `simplify`. -/
inductive SymRes where
  | ok (info : SymExInfo)
  | err
  | panic
deriving DecidableEq, Repr

/-- The loop body of `o2::symbolic_execution`, carrying the running
`ptr_delta` and the per-offset `memory_delta` map. -/
def symExGo : List Stmt → Int → List (Int × SymExVal) → SymRes
  | [], pd, md => .ok ⟨pd, md⟩
  | .PtrInc n :: rest, pd, md => symExGo rest (pd + n) md
  | .ValInc n :: rest, pd, md =>
    match mapGet md pd with
    | some v =>
      match v.addVal (.Const n) with
      | some v' => symExGo rest pd (mapSet md pd v')
      | none => .panic
    | none => symExGo rest pd (md ++ [(pd, .Const n)])
  | .Loop _ :: _, _, _ => .err
  | .Output :: _, _, _ => .err
  | .Input :: _, _, _ => .err

/-- `o2::symbolic_execution`. -/
def symbolic_execution (prog : List Stmt) : SymRes :=
  symExGo prog 0 []

/-! ## Loop optimizer (`o2::optimize`, `o2::optimize_loop`) -/

/-- The diagnostic line printed by `optimize_loop`
(`println!("step = {step}, body = {body:?}")`). -/
def diagLine (step : Int) (body : List Stmt) : String :=
  "step = " ++ (toString step ++ (", body = " ++ Stmt.debugListStr body))

/-- `o2::optimize_loop`.  Returns the replacement statements for the
loop position together with the diagnostic lines printed, or `none` for
the `unimplemented!("diverge: dead loop")` panic.  Note that the source
returns the bare body (not a `Loop` node): `optimize` splices it. -/
def optimize_loop (body : List Stmt) : Option (List Stmt × List String) :=
  match symbolic_execution body with
  | .ok ⟨ptr_delta, memory_delta⟩ =>
    if ptr_delta = 0 then
      match mapGet memory_delta 0 with
      | some (.Const 0) => none
      | some (.Const v) =>
        if v ≠ 1 then some (body, []) else some (body, [diagLine v body])
      | _ => some (body, [])
    else some (body, [])
  | .err => some (body, [])
  | .panic => none

/-- `o2::optimize`: `flat_map` of `optimize_loop` over the top level of
the tree, collecting the printed diagnostics in order. -/
def optimize : List Stmt → Option (List Stmt × List String)
  | [] => some ([], [])
  | stmt :: rest =>
    let head :=
      match stmt with
      | .Loop stmts => optimize_loop stmts
      | s => some ([s], [])
    match head, optimize rest with
    | some (h, t1), some (r, t2) => some (h ++ r, t1 ++ t2)
    | _, _ => none

/-- Number of `Loop` nodes at the top level of a statement list
(the "set of loops present" of the optimizer contract). -/
def numLoops : List Stmt → Nat
  | [] => 0
  | .Loop _ :: rest => numLoops rest + 1
  | _ :: rest => numLoops rest

/-! ## Runtime state shared by both interpreters -/

/-- Tape length (`vec![0u8; 30000]`). -/
def tapeLen : Nat := 30000

/-- Runtime state: the tape (a total function standing for the 30000-byte
vector; reads and writes are bound-checked separately), the cursor, the
remaining input bytes and the output bytes emitted so far. -/
structure St where
  mem : Nat → Nat
  ptr : Nat
  inp : List Nat
  out : List Nat

/-- Initial state of either interpreter. -/
def initSt (inp : List Nat) : St :=
  ⟨fun _ => 0, 0, inp, []⟩

/-- `self.ptr.wrapping_add_signed(n as isize)` (`usize` wraps at 2^64). -/
def movePtr (s : St) (n : Int) : St :=
  { s with ptr := (((s.ptr : Int) + n) % 2 ^ 64).toNat }

/-- `self.memory[self.ptr]`: bound-checked tape read (index panic is
modelled as `none`). -/
def readCell (s : St) : Option Nat :=
  if s.ptr < tapeLen then some (s.mem s.ptr) else none

/-- `self.memory[self.ptr] = self.memory[self.ptr].wrapping_add_signed(n as i8)`. -/
def adjustCell (s : St) (n : Int) : Option St :=
  if s.ptr < tapeLen then
    some { s with
      mem := fun i =>
        if i = s.ptr then (((s.mem s.ptr : Int) + asI8 n) % 2 ^ 8).toNat
        else s.mem i }
  else none

/-- `Output`: write the current cell to the output sink. -/
def outputCell (s : St) : Option St :=
  match readCell s with
  | some v => some { s with out := s.out ++ [v] }
  | none => none

/-- `Input`: `self.memory[self.ptr] = self.input.next()...unwrap_or(0)`. -/
def takeInput (s : St) : Option St :=
  if s.ptr < tapeLen then
    some { s with
      mem := fun i => if i = s.ptr then s.inp.headD 0 else s.mem i
      inp := s.inp.tail }
  else none

/-- Result of a fuelled run: normal completion, an index-out-of-bounds
panic, or fuel exhaustion (standing for a longer or diverging run). -/
inductive Res where
  | ok (s : St)
  | panic
  | timeout

/-! ## Tree interpreter (`o2::Interpreter::interpret_rec`) -/

/-- `Interpreter::interpret_rec`, fuelled: one unit of fuel is consumed
per statement dispatch, so the recursion is structural on the fuel and a
run of a non-diverging program succeeds for every large enough fuel. -/
def interpretRec : Nat → List Stmt → St → Res
  | _, [], s => .ok s
  | 0, _ :: _, _ => .timeout
  | f + 1, .PtrInc n :: rest, s => interpretRec f rest (movePtr s n)
  | f + 1, .ValInc n :: rest, s =>
    match adjustCell s n with
    | some s' => interpretRec f rest s'
    | none => .panic
  | f + 1, .Output :: rest, s =>
    match outputCell s with
    | some s' => interpretRec f rest s'
    | none => .panic
  | f + 1, .Input :: rest, s =>
    match takeInput s with
    | some s' => interpretRec f rest s'
    | none => .panic
  | f + 1, .Loop body :: rest, s =>
    match readCell s with
    | none => .panic
    | some 0 => interpretRec f rest s
    | some (_ + 1) =>
      match interpretRec f body s with
      | .ok s' => interpretRec f (.Loop body :: rest) s'
      | r => r

/-! ## Jump-based flat interpreter (`o1::main`'s execution loop) -/

/-- The `while pc < prog.len()` loop of `o1::main`, fuelled: one unit of
fuel per executed instruction. -/
def flatRun (P : List Inst) : Nat → Nat → St → Res
  | 0, pc, s =>
    match P[pc]? with
    | none => .ok s
    | some _ => .timeout
  | f + 1, pc, s =>
    match P[pc]? with
    | none => .ok s
    | some inst =>
        match inst with
        | .PtrInc n => flatRun P f (pc + 1) (movePtr s n)
        | .ValInc n =>
          match adjustCell s n with
          | some s' => flatRun P f (pc + 1) s'
          | none => .panic
        | .LoopStart target =>
          match readCell s with
          | none => .panic
          | some 0 => flatRun P f target s
          | some (_ + 1) => flatRun P f (pc + 1) s
        | .LoopEnd target =>
          match readCell s with
          | none => .panic
          | some 0 => flatRun P f (pc + 1) s
          | some (_ + 1) => flatRun P f target s
        | .Output =>
          match outputCell s with
          | some s' => flatRun P f (pc + 1) s'
          | none => .panic
        | .Input =>
          match takeInput s with
          | some s' => flatRun P f (pc + 1) s'
          | none => .panic

/-! ## Pipeline helpers (`o2::main`) -/

/-- One item on the process's standard output: a diagnostic text line
printed by the optimizer, or a byte written by the interpreted program. -/
inductive OutItem where
  | line (l : String)
  | byte (b : Nat)
deriving DecidableEq, Repr

/-- The `o2::main` pipeline (non-`--text` path): assemble, build the
tree, optimize, interpret; `none` on a parse error, an optimizer panic,
an interpreter panic, or fuel exhaustion.  The resulting list is the
process's standard output: the optimizer's diagnostic lines (printed
during optimization, before interpretation starts) followed by the
program's own output bytes. -/
def o2MainOut (src inp : List Nat) (fuel : Nat) : Option (List OutItem) :=
  match o1compile src with
  | .error _ => none
  | .ok P =>
    match optimize (o2compile P) with
    | none => none
    | some (q, tr) =>
      match interpretRec fuel q (initSt inp) with
      | .ok s => some (tr.map OutItem.line ++ s.out.map OutItem.byte)
      | _ => none

/-- Run the `o2` pipeline and return the final values of tape cells 0
and 1 (`none` on error, panic or fuel exhaustion). -/
def pipeCells (src inp : List Nat) (fuel : Nat) : Option (Nat × Nat) :=
  match o1compile src with
  | .error _ => none
  | .ok P =>
    match optimize (o2compile P) with
    | none => none
    | some (q, _) =>
      match interpretRec fuel q (initSt inp) with
      | .ok s => some (s.mem 0, s.mem 1)
      | _ => none

/-- Interpret a statement list on a fresh tape and return the output
bytes (`none` on panic or fuel exhaustion). -/
def runOut (fuel : Nat) (prog : List Stmt) (inp : List Nat) :
    Option (List Nat) :=
  match interpretRec fuel prog (initSt inp) with
  | .ok s => some s.out
  | _ => none

/-! ## Native code generator (`llvm.rs`) -/

/-- LLVM types used by `Compiler::new` / `Compiler::compile`. -/
inductive LType where
  | i8
  | i32
  | i64
  | ptr
deriving DecidableEq, Repr

/-- An external function declaration added to the module
(`module.add_function(..., Some(Linkage::External))`), with the
parameter types of its `fn_type`, its return type, and whether the
`noalias` attribute was attached to its return value. -/
structure ExtFn where
  name : String
  params : List LType
  ret : LType
  retNoalias : Bool
deriving DecidableEq, Repr

/-- The `calloc` declaration of `Compiler::new`:
`calloc_type = ptr_type.fn_type(&[i64_type.into()], false)` with the
`noalias` enum attribute attached at `AttributeLoc::Return`. -/
def callocDecl : ExtFn := ⟨"calloc", [.i64], .ptr, true⟩

/-- The `putchar` declaration of `Compiler::new`. -/
def putcharDecl : ExtFn := ⟨"putchar", [.i32], .i32, false⟩

/-- The `getchar` declaration of `Compiler::new`. -/
def getcharDecl : ExtFn := ⟨"getchar", [], .i32, false⟩

/-- A compile-time constant argument of a built call, or a run-time
register value. -/
inductive IRVal where
  | constI32 (n : Int)
  | constI64 (n : Nat)
  | reg
deriving DecidableEq, Repr

/-- One builder action emitted into the entry routine, in program order
(each constructor mirrors one `self.builder.build_*` /
`context.append_basic_block` call in `llvm.rs`). -/
inductive IREvent where
  | storeVar (dst : String) (v : IRVal)
  | loadVar (src : String)
  | callFn (fn : String) (args : List IRVal)
  | gepCell
  | loadCell
  | addInt
  | storeCell (v : IRVal)
  | icmpNe
  | appendBlock
  | brUncond
  | brCond
  | retVal (v : IRVal)
deriving DecidableEq, Repr

/-- `Compiler::compile_rec`: the builder actions emitted for each
statement, in order. -/
def compileRecEvents : List Stmt → List IREvent
  | [] => []
  | .PtrInc _ :: rest =>
    [.loadVar "ptr", .addInt, .storeVar "ptr" .reg] ++ compileRecEvents rest
  | .ValInc _ :: rest =>
    [.loadVar "memory", .loadVar "ptr", .gepCell, .loadCell, .addInt,
      .storeCell .reg] ++ compileRecEvents rest
  | .Loop stmts :: rest =>
    [.appendBlock, .brUncond, .loadVar "memory", .loadVar "ptr", .gepCell,
      .loadCell, .icmpNe, .appendBlock, .appendBlock, .brCond]
      ++ compileRecEvents stmts ++ [.brUncond] ++ compileRecEvents rest
  | .Output :: rest =>
    [.loadVar "memory", .loadVar "ptr", .gepCell, .loadCell,
      .callFn "putchar" [.reg]] ++ compileRecEvents rest
  | .Input :: rest =>
    [.loadVar "memory", .loadVar "ptr", .gepCell, .callFn "getchar" [],
      .storeCell .reg] ++ compileRecEvents rest

/-- `Compiler::compile`: store the cursor constant 0, call `calloc`
with the two constant arguments 30000 and 1, store the resulting tape
base pointer, lower the statements, return the constant status 0. -/
def compileEvents (prog : List Stmt) : List IREvent :=
  [.storeVar "ptr" (.constI32 0),
    .callFn "calloc" [.constI64 30000, .constI64 1],
    .storeVar "memory" .reg]
  ++ compileRecEvents prog ++ [.retVal (.constI32 0)]

/-! ## Reference recounts used to state the optimizer claims -/

/-- The signed sum of the `ValInc` deltas applied at relative offset `k`
by a straight-line body, starting from cursor offset `pd` (a direct
recount of what `symbolic_execution` accumulates at one key). -/
def offsetSum : List Stmt → Int → Int → Int
  | [], _, _ => 0
  | .PtrInc n :: rest, pd, k => offsetSum rest (pd + n) k
  | .ValInc n :: rest, pd, k =>
    (if pd = k then n else 0) + offsetSum rest pd k
  | _ :: rest, pd, k => offsetSum rest pd k

/-- Whether a straight-line body performs any `ValInc` at relative
offset `k`, starting from cursor offset `pd`. -/
def offTouched : List Stmt → Int → Int → Bool
  | [], _, _ => false
  | .PtrInc n :: rest, pd, k => offTouched rest (pd + n) k
  | .ValInc _ :: rest, pd, k => pd = k || offTouched rest pd k
  | _ :: rest, pd, k => offTouched rest pd k

/-! ## Instruction shapes and the folding contract (C7) -/

/-- The shape of a flat instruction with loop targets erased (the claim
about run-length folding is independent of jump resolution). -/
inductive SInst where
  | ptr (n : Int)
  | val (n : Int)
  | lopen
  | lclose
  | out
  | inp
deriving DecidableEq, Repr

/-- Erase the jump target of an instruction. -/
def instShape : Inst → SInst
  | .PtrInc n => .ptr n
  | .ValInc n => .val n
  | .LoopStart _ => .lopen
  | .LoopEnd _ => .lclose
  | .Output => .out
  | .Input => .inp

/-- Cursor-move symbols (`>` / `<`). -/
def isMove (c : Nat) : Bool := c = 62 || c = 60

/-- Cell-arithmetic symbols (`+` / `-`). -/
def isArith (c : Nat) : Bool := c = 43 || c = 45

/-- The eight meaningful symbols; all other bytes are comments. -/
def isMeaningful (c : Nat) : Bool :=
  isMove c || isArith c || c = 91 || c = 93 || c = 46 || c = 44

/-- The meaningful symbols of a source, in order. -/
def tokens (src : List Nat) : List Nat := src.filter isMeaningful

/-- Signed contribution of one cursor-move symbol (+1 right, −1 left). -/
def moveDelta (c : Nat) : Int := if c = 62 then 1 else -1

/-- Signed contribution of one cell-arithmetic symbol. -/
def arithDelta (c : Nat) : Int := if c = 43 then 1 else -1

/-- Shape of a control/IO symbol. -/
def ctlShape (c : Nat) : SInst :=
  if c = 91 then .lopen else if c = 93 then .lclose
  else if c = 46 then .out else .inp

/-- The longest prefix of symbols satisfying `p`, summed with `d`,
together with the rest of the list (used to take a maximal run). -/
def runSpan (p : Nat → Bool) (d : Nat → Int) : List Nat → Int × List Nat
  | [] => (0, [])
  | c :: cs =>
    if p c then (d c + (runSpan p d cs).1, (runSpan p d cs).2)
    else (0, c :: cs)

/-- The folding contract, written from the spec's words: every maximal
run of cursor-move symbols becomes exactly one `ptr` shape carrying the
signed sum of the moves, every maximal run of cell-arithmetic symbols
exactly one `val` shape carrying the signed sum, and each control/IO
symbol becomes its own shape.  Intended to be applied to a token list
(output of `tokens`). -/
def specRuns : List Nat → List SInst
  | [] => []
  | c :: cs =>
    if isMove c then
      .ptr (moveDelta c + (runSpan isMove moveDelta cs).1) ::
        specRuns (runSpan isMove moveDelta cs).2
    else if isArith c then
      .val (arithDelta c + (runSpan isArith arithDelta cs).1) ::
        specRuns (runSpan isArith arithDelta cs).2
    else ctlShape c :: specRuns cs
termination_by l => l.length
decreasing_by
  all_goals simp_wf
  all_goals
    have hb : ∀ (p : Nat → Bool) (d : Nat → Int) (l : List Nat),
        (runSpan p d l).2.length ≤ l.length := fun p d l => by
      induction l with
      | nil => simp [runSpan]
      | cons a l ih =>
        by_cases h : p a
        · simp only [runSpan, h, if_true]
          exact ih.trans (Nat.le_succ _)
        · simp [runSpan, h]
    exact Nat.lt_succ_of_le (hb _ _ _)

/-- Shapes of a flushed pending run. -/
def flushS : AState → List SInst
  | .NoneSt => []
  | .PtrArithm n => [.ptr n]
  | .ValArithm n => [.val n]

/-- The shape-level projection of the assembler's accumulator machine:
what `o1go` appends to the program, with loop targets erased and the
loop stack dropped. -/
def goS : AState → List Nat → List SInst
  | st, [] => flushS st
  | st, c :: cs =>
    if isMove c then
      match st with
      | .PtrArithm n => goS (.PtrArithm (n + moveDelta c)) cs
      | .ValArithm n => .val n :: goS (.PtrArithm (moveDelta c)) cs
      | .NoneSt => goS (.PtrArithm (moveDelta c)) cs
    else if isArith c then
      match st with
      | .ValArithm n => goS (.ValArithm (n + arithDelta c)) cs
      | .PtrArithm n => .ptr n :: goS (.ValArithm (arithDelta c)) cs
      | .NoneSt => goS (.ValArithm (arithDelta c)) cs
    else if isMeaningful c then
      flushS st ++ ctlShape c :: goS .NoneSt cs
    else goS st cs

/-- Merge a pending accumulator run into an already-folded shape list
(the pending run extends the first maximal run, if it is of the same
kind). -/
def mergeS : AState → List SInst → List SInst
  | .NoneSt, r => r
  | .PtrArithm n, .ptr m :: r => .ptr (n + m) :: r
  | .PtrArithm n, r => .ptr n :: r
  | .ValArithm n, .val m :: r => .val (n + m) :: r
  | .ValArithm n, r => .val n :: r

/-! ## Flattened layout of a statement tree (C5, C6)

`flattenAt p ss` is the flat, jump-resolved instruction sequence that a
well-formed statement list `ss` occupies starting at absolute index `p`:
a `Loop body` at index `i` becomes `LoopStart (i + |body| + 2)`, the
flattened body, and `LoopEnd (i + 1)` — exactly the targets the
assembler produces (`LoopEnd(start+1)`; `LoopOpen` patched to the index
one past the close). -/

/-- Number of flat instructions a statement list occupies. -/
def flatLenL : List Stmt → Nat
  | [] => 0
  | .Loop body :: rest => (flatLenL body + 2) + flatLenL rest
  | _ :: rest => 1 + flatLenL rest

/-- The flat, jump-resolved image of a statement list placed at
absolute index `p`. -/
def flattenAt : Nat → List Stmt → List Inst
  | _, [] => []
  | p, .PtrInc n :: rest => .PtrInc n :: flattenAt (p + 1) rest
  | p, .ValInc n :: rest => .ValInc n :: flattenAt (p + 1) rest
  | p, .Output :: rest => .Output :: flattenAt (p + 1) rest
  | p, .Input :: rest => .Input :: flattenAt (p + 1) rest
  | p, .Loop body :: rest =>
    .LoopStart (p + flatLenL body + 2) ::
      (flattenAt (p + 1) body ++
        (.LoopEnd (p + 1) :: flattenAt (p + flatLenL body + 2) rest))

/-- The (open, close) index pairs of the matching brackets of a
statement list placed at absolute index `p`: a `Loop` at index `i` with
body of flat length `m` matches the `LoopEnd` at index `i + m + 1`. -/
def matchedPairs : Nat → List Stmt → List (Nat × Nat)
  | _, [] => []
  | p, .Loop body :: rest =>
    (p, p + flatLenL body + 1) ::
      (matchedPairs (p + 1) body ++
        matchedPairs (p + flatLenL body + 2) rest)
  | p, _ :: rest => matchedPairs (p + 1) rest

/-- Invariant of the assembler state: the program emitted so far
decomposes into complete well-formed segments separated by the
placeholder `LoopStart 0` instructions whose indices are on the pending
stack (top of stack first). -/
def AsmInv : List Nat → List Inst → Prop
  | [], prog => ∃ ss, prog = flattenAt 0 ss
  | i :: is, prog =>
    ∃ pre ss, AsmInv is pre ∧ pre.length = i ∧
      prog = pre ++ .LoopStart 0 :: flattenAt (i + 1) ss

/-! ## A small-step presentation of the tree interpreter (C5)

To relate the recursive tree interpreter to the jump-based flat
interpreter, the tree walk is presented as a machine whose
configuration is the current statement list plus a stack of loop
frames `(body, rest)`: re-checking the gate cell when the current list
is exhausted corresponds to the flat `LoopEnd`, entering a loop to the
flat `LoopStart`.  Each machine step corresponds to exactly one flat
instruction dispatch. -/

/-- Result of one machine step. -/
inductive MStep where
  | done (s : St)
  | panic
  | cont (cur : List Stmt) (K : List (List Stmt × List Stmt)) (s : St)

/-- One step of the tree machine. -/
def treeStep : List Stmt → List (List Stmt × List Stmt) → St → MStep
  | [], [], s => .done s
  | [], (body, rest) :: K, s =>
    match readCell s with
    | none => .panic
    | some 0 => .cont rest K s
    | some (_ + 1) => .cont body ((body, rest) :: K) s
  | .PtrInc n :: cur, K, s => .cont cur K (movePtr s n)
  | .ValInc n :: cur, K, s =>
    match adjustCell s n with
    | some s' => .cont cur K s'
    | none => .panic
  | .Output :: cur, K, s =>
    match outputCell s with
    | some s' => .cont cur K s'
    | none => .panic
  | .Input :: cur, K, s =>
    match takeInput s with
    | some s' => .cont cur K s'
    | none => .panic
  | .Loop body :: cur, K, s =>
    match readCell s with
    | none => .panic
    | some 0 => .cont cur K s
    | some (_ + 1) => .cont body ((body, cur) :: K) s

/-- Fuelled machine run (one unit of fuel per step, like `flatRun`). -/
def treeRunM : Nat → List Stmt → List (List Stmt × List Stmt) → St → Res
  | 0, cur, K, s =>
    match treeStep cur K s with
    | .done s' => .ok s'
    | _ => .timeout
  | f + 1, cur, K, s =>
    match treeStep cur K s with
    | .done s' => .ok s'
    | .panic => .panic
    | .cont cur' K' s' => treeRunM f cur' K' s'

/-- Iterate exactly `n` machine steps, failing on done/panic. -/
def iterM : Nat → List Stmt → List (List Stmt × List Stmt) → St →
    Option (List Stmt × List (List Stmt × List Stmt) × St)
  | 0, cur, K, s => some (cur, K, s)
  | f + 1, cur, K, s =>
    match treeStep cur K s with
    | .cont cur' K' s' => iterM f cur' K' s'
    | _ => none

/-- A frame stack read back as statements: the frame `(body, rest)`
behaves exactly like the program `Loop body :: rest`. -/
def decodeK : List (List Stmt × List Stmt) → List Stmt
  | [] => []
  | (body, rest) :: K => (.Loop body :: rest) ++ decodeK K

/-- `xs` occurs in `P` starting at index `p` (element-wise). -/
def SegAt (P : List Inst) (p : Nat) (xs : List Inst) : Prop :=
  ∀ j x, xs[j]? = some x → P[p + j]? = some x

/-- The frame stack is laid out in `P` after position `p`: the next
instruction is the `LoopEnd` of the innermost frame (its matching
`LoopStart` sits just before the frame's body), followed by the
flattened rest of that frame, and so on; the outermost level ends
exactly at `P.length`. -/
inductive FramesRep (P : List Inst) : Nat → List (List Stmt × List Stmt) → Prop
  | nil : FramesRep P P.length []
  | cons {q p : Nat} {body rest : List Stmt}
      {K : List (List Stmt × List Stmt)} :
      p = q + 1 + flatLenL body →
      SegAt P (q + 1) (flattenAt (q + 1) body) →
      P[p]? = some (.LoopEnd (q + 1)) →
      SegAt P (p + 1) (flattenAt (p + 1) rest) →
      FramesRep P (p + 1 + flatLenL rest) K →
      FramesRep P p ((body, rest) :: K)

/-- The machine configuration `(cur, K)` is represented at program
counter `pc` of the flat program `P`. -/
def CfgRep (P : List Inst) (cur : List Stmt)
    (K : List (List Stmt × List Stmt)) (pc : Nat) : Prop :=
  SegAt P pc (flattenAt pc cur) ∧ FramesRep P (pc + flatLenL cur) K

theorem wrap32_idem (a : Int) : wrap32 (wrap32 a) = wrap32 a := by
  unfold wrap32; omega

theorem wrap32_add_left (a b : Int) :
    wrap32 (wrap32 a + b) = wrap32 (a + b) := by
  unfold wrap32; omega

theorem mapGet_mapSet (md : List (Int × SymExVal)) (k : Int) (v : SymExVal)
    (k' : Int) (h : (mapGet md k).isSome) :
    mapGet (mapSet md k v) k' = if k = k' then some v else mapGet md k' := by
  induction md with
  | nil => simp [mapGet] at h
  | cons p rest ih =>
    obtain ⟨k0, v0⟩ := p
    by_cases hk : k0 = k
    · subst hk
      by_cases hk' : k0 = k' <;> simp [mapGet, mapSet, hk']
    · have h' : (mapGet rest k).isSome := by
        simpa [mapGet, hk] using h
      by_cases hk' : k0 = k'
      · subst hk'
        have : ¬ k = k0 := fun hc => hk hc.symm
        simp [mapGet, mapSet, hk, this]
      · simp [mapGet, mapSet, hk, hk', ih h']

theorem mapGet_append (md : List (Int × SymExVal)) (p : Int) (v : SymExVal)
    (k : Int) :
    mapGet (md ++ [(p, v)]) k =
      match mapGet md k with
      | some w => some w
      | none => if p = k then some v else none := by
  induction md with
  | nil => simp [mapGet]
  | cons q rest ih =>
    obtain ⟨k0, v0⟩ := q
    by_cases h : k0 = k <;> simp [mapGet, h, ih]

/-- Invariant of the symbolic-execution fold: on a straight-line body
whose `ValInc` deltas are in `i32` range, no `todo!()` branch of
`simplify` is reached and every entry of the offset map stays a
wrapped-constant accumulating the per-offset delta sums. -/
theorem symExGo_spec :
    ∀ (prog : List Stmt) (pd : Int) (md : List (Int × SymExVal)),
    (∀ s ∈ prog, (∃ n, s = Stmt.PtrInc n) ∨
      ∃ n, s = Stmt.ValInc n ∧ wrap32 n = n) →
    (∀ k v, mapGet md k = some v →
      ∃ c, v = SymExVal.Const c ∧ wrap32 c = c) →
    ∃ pdf md', symExGo prog pd md = .ok ⟨pdf, md'⟩ ∧
      (∀ k c, mapGet md k = some (SymExVal.Const c) →
        mapGet md' k = some (SymExVal.Const (wrap32 (c + offsetSum prog pd k)))) ∧
      (∀ k, mapGet md k = none → offTouched prog pd k = true →
        mapGet md' k = some (SymExVal.Const (wrap32 (offsetSum prog pd k)))) ∧
      (∀ k, mapGet md k = none → offTouched prog pd k = false →
        mapGet md' k = none) := by
  intro prog
  induction prog with
  | nil =>
    intro pd md _ hmd
    refine ⟨pd, md, rfl, ?_, ?_, ?_⟩
    · intro k c hk
      obtain ⟨c', hc', hw⟩ := hmd k _ hk
      obtain rfl : c' = c := by
        cases hc'; rfl
      simpa [offsetSum, hw] using hk
    · intro k _ ht
      simp [offTouched] at ht
    · intro k hk _
      exact hk
  | cons s rest ih =>
    intro pd md hok hmd
    rcases hok s (List.mem_cons_self s rest) with ⟨n, rfl⟩ | ⟨n, rfl, hwn⟩
    · -- PtrInc
      obtain ⟨pdf, md', hrun, h1, h2, h3⟩ :=
        ih (pd + n) md (fun t ht => hok t (List.mem_cons_of_mem _ ht)) hmd
      exact ⟨pdf, md', by simpa [symExGo] using hrun,
        fun k c hk => by simpa [offsetSum] using h1 k c hk,
        fun k hk ht => by
          simp only [offTouched] at ht
          simpa [offsetSum] using h2 k hk ht,
        fun k hk ht => by
          simp only [offTouched] at ht
          exact h3 k hk ht⟩
    · -- ValInc
      cases h0 : mapGet md pd with
      | some v =>
        obtain ⟨c, rfl, hwc⟩ := hmd pd v h0
        have hadd : SymExVal.addVal (SymExVal.Const c) (SymExVal.Const n) =
            some (SymExVal.Const (wrap32 (c + n))) := by
          simp [SymExVal.addVal, SymExVal.simplify]
        set md2 := mapSet md pd (SymExVal.Const (wrap32 (c + n))) with hmd2
        have hsome : (mapGet md pd).isSome := by simp [h0]
        have hget2 : ∀ k', mapGet md2 k' =
            if pd = k' then some (SymExVal.Const (wrap32 (c + n)))
            else mapGet md k' := fun k' => mapGet_mapSet md pd _ k' hsome
        have hmd2ok : ∀ k v, mapGet md2 k = some v →
            ∃ c', v = SymExVal.Const c' ∧ wrap32 c' = c' := by
          intro k v hk
          rw [hget2 k] at hk
          by_cases hpk : pd = k
          · simp [hpk] at hk
            exact ⟨wrap32 (c + n), hk.symm, wrap32_idem _⟩
          · rw [if_neg hpk] at hk
            exact hmd k v hk
        obtain ⟨pdf, md', hrun, h1, h2, h3⟩ :=
          ih pd md2 (fun t ht => hok t (List.mem_cons_of_mem _ ht)) hmd2ok
        refine ⟨pdf, md', ?_, ?_, ?_, ?_⟩
        · simpa [symExGo, h0, hadd, hmd2] using hrun
        · intro k c' hk
          by_cases hpk : pd = k
          · subst hpk
            rw [h0] at hk
            obtain rfl : c = c' := by cases hk; rfl
            have := h1 pd (wrap32 (c + n)) (by simp [hget2])
            rw [this]
            simp [offsetSum, wrap32_add_left, add_assoc]
          · have := h1 k c' (by rw [hget2 k, if_neg hpk]; exact hk)
            rw [this]
            simp [offsetSum, hpk]
        · intro k hk ht
          have hpk : ¬ pd = k := fun hc => by
            subst hc; rw [h0] at hk; cases hk
          simp [offTouched, hpk] at ht
          have := h2 k (by rw [hget2 k, if_neg hpk]; exact hk) ht
          rw [this]
          simp [offsetSum, hpk]
        · intro k hk ht
          have hpk : ¬ pd = k := fun hc => by
            subst hc; rw [h0] at hk; cases hk
          simp [offTouched, hpk] at ht
          exact h3 k (by rw [hget2 k, if_neg hpk]; exact hk) ht
      | none =>
        set md2 := md ++ [(pd, SymExVal.Const n)] with hmd2
        have hget2 : ∀ k', mapGet md2 k' =
            match mapGet md k' with
            | some w => some w
            | none => if pd = k' then some (SymExVal.Const n) else none :=
          fun k' => mapGet_append md pd _ k'
        have hmd2ok : ∀ k v, mapGet md2 k = some v →
            ∃ c', v = SymExVal.Const c' ∧ wrap32 c' = c' := by
          intro k v hk
          rw [hget2 k] at hk
          cases hmk : mapGet md k with
          | some w =>
            rw [hmk] at hk
            cases hk
            exact hmd k v hmk
          | none =>
            rw [hmk] at hk
            by_cases hpk : pd = k
            · rw [if_pos hpk] at hk
              cases hk
              exact ⟨n, rfl, hwn⟩
            · rw [if_neg hpk] at hk
              cases hk
        obtain ⟨pdf, md', hrun, h1, h2, h3⟩ :=
          ih pd md2 (fun t ht => hok t (List.mem_cons_of_mem _ ht)) hmd2ok
        refine ⟨pdf, md', ?_, ?_, ?_, ?_⟩
        · simpa [symExGo, h0, hmd2] using hrun
        · intro k c' hk
          have hpk : ¬ pd = k := fun hc => by
            subst hc; rw [h0] at hk; cases hk
          have := h1 k c' (by rw [hget2 k, hk])
          rw [this]
          simp [offsetSum, hpk]
        · intro k hk ht
          by_cases hpk : pd = k
          · subst hpk
            have := h1 pd n (by rw [hget2 pd, hk, if_pos rfl])
            rw [this]
            simp [offsetSum, hwn, wrap32_add_left]
          · simp [offTouched, hpk] at ht
            have := h2 k (by rw [hget2 k, hk, if_neg hpk]) ht
            rw [this]
            simp [offsetSum, hpk]
        · intro k hk ht
          have hpk : ¬ pd = k := by
            intro hc
            subst hc
            simp [offTouched] at ht
          simp [offTouched, hpk] at ht
          exact h3 k (by rw [hget2 k, hk, if_neg hpk]) ht

/-! ## Run-length folding facts (C7) -/

theorem getElem?_append_some {α} {l l2 : List α} {i : Nat} {x : α}
    (h : l[i]? = some x) : (l ++ l2)[i]? = some x := by
  have hlt := (List.getElem?_eq_some.1 h).1
  rw [List.getElem?_append, if_pos hlt]
  exact h

theorem set_getElem?_id {α} (l : List α) (i : Nat) (x : α)
    (h : l[i]? = some x) : l.set i x = l := by
  apply List.ext_getElem?
  intro n
  rcases eq_or_ne n i with rfl | hn
  · simp [List.getElem?_set_self', h]
  · simp [List.getElem?_set_ne hn.symm]

theorem flushProg_getElem? {prog : List Inst} {st : AState} {i : Nat}
    {x : Inst} (h : prog[i]? = some x) : (flushProg prog st)[i]? = some x := by
  cases st with
  | NoneSt => simpa [flushProg] using h
  | PtrArithm n =>
    simp only [flushProg]
    exact getElem?_append_some h
  | ValArithm n =>
    simp only [flushProg]
    exact getElem?_append_some h

theorem shapes_flushProg (prog : List Inst) (st : AState) :
    (flushProg prog st).map instShape = prog.map instShape ++ flushS st := by
  cases st <;> simp [flushProg, flushS, instShape]

theorem stack_inv_extend (prog : List Inst) (st : AState) {stack : List Nat}
    (xs : List Inst)
    (h : ∀ i ∈ stack, ∃ t, prog[i]? = some (Inst.LoopStart t)) :
    ∀ i ∈ stack, ∃ t, (flushProg prog st ++ xs)[i]? = some (Inst.LoopStart t) := by
  intro i hi
  obtain ⟨t, ht⟩ := h i hi
  exact ⟨t, getElem?_append_some (flushProg_getElem? ht)⟩

theorem ctlShape_cases (c : Nat) :
    ctlShape c = .lopen ∨ ctlShape c = .lclose ∨ ctlShape c = .out ∨
      ctlShape c = .inp := by
  unfold ctlShape
  split
  · exact Or.inl rfl
  · split
    · exact Or.inr (Or.inl rfl)
    · split
      · exact Or.inr (Or.inr (Or.inl rfl))
      · exact Or.inr (Or.inr (Or.inr rfl))

theorem mergeS_ctl (st : AState) (c : Nat) (r : List SInst) :
    mergeS st (ctlShape c :: r) = flushS st ++ ctlShape c :: r := by
  rcases ctlShape_cases c with h | h | h | h <;> rw [h] <;> cases st <;>
    simp [mergeS, flushS]

theorem mergeS_none (r : List SInst) : mergeS .NoneSt r = r := rfl

theorem mergeS_ptr (ts : List Nat) (m : Int) :
    mergeS (.PtrArithm m) (specRuns ts) =
      .ptr (m + (runSpan isMove moveDelta ts).1) ::
        specRuns (runSpan isMove moveDelta ts).2 := by
  cases ts with
  | nil => simp [specRuns, runSpan, mergeS]
  | cons c cs =>
    by_cases hm : isMove c
    · simp [specRuns, hm, runSpan, mergeS, add_assoc]
    · by_cases ha : isArith c
      · simp [specRuns, hm, ha, runSpan, mergeS]
      · simp [specRuns, hm, ha, runSpan, mergeS_ctl, flushS]

theorem mergeS_val (ts : List Nat) (m : Int) :
    mergeS (.ValArithm m) (specRuns ts) =
      .val (m + (runSpan isArith arithDelta ts).1) ::
        specRuns (runSpan isArith arithDelta ts).2 := by
  cases ts with
  | nil => simp [specRuns, runSpan, mergeS]
  | cons c cs =>
    by_cases hm : isMove c
    · have ha : isArith c = false := by
        rcases (by simpa [isMove] using hm : c = 62 ∨ c = 60) with rfl | rfl <;>
          rfl
      simp [specRuns, hm, ha, runSpan, mergeS]
    · by_cases ha : isArith c
      · simp [specRuns, hm, ha, runSpan, mergeS, add_assoc]
      · simp [specRuns, hm, ha, runSpan, mergeS_ctl, flushS]

theorem goS_spec : ∀ (cs : List Nat) (st : AState),
    goS st cs = mergeS st (specRuns (tokens cs)) := by
  intro cs
  induction cs with
  | nil =>
    intro st
    cases st <;> simp [goS, tokens, specRuns, mergeS, flushS]
  | cons c cs ih =>
    intro st
    by_cases hm : isMove c
    · have htok : tokens (c :: cs) = c :: tokens cs := by
        simp [tokens, List.filter_cons, isMeaningful, hm]
      have hspec : specRuns (tokens (c :: cs)) =
          .ptr (moveDelta c + (runSpan isMove moveDelta (tokens cs)).1) ::
            specRuns (runSpan isMove moveDelta (tokens cs)).2 := by
        rw [htok]
        simp [specRuns, hm]
      cases st with
      | NoneSt =>
        rw [show goS .NoneSt (c :: cs) = goS (.PtrArithm (moveDelta c)) cs from
          by simp [goS, hm], ih, hspec]
        rw [mergeS_ptr, mergeS_none]
      | PtrArithm n =>
        rw [show goS (.PtrArithm n) (c :: cs) =
            goS (.PtrArithm (n + moveDelta c)) cs from by simp [goS, hm],
          ih, hspec, mergeS_ptr]
        simp [mergeS, add_assoc]
      | ValArithm n =>
        rw [show goS (.ValArithm n) (c :: cs) =
            .val n :: goS (.PtrArithm (moveDelta c)) cs from by simp [goS, hm],
          ih, hspec, mergeS_ptr]
        simp [mergeS]
    · by_cases ha : isArith c
      · have htok : tokens (c :: cs) = c :: tokens cs := by
          simp [tokens, List.filter_cons, isMeaningful, ha]
        have hspec : specRuns (tokens (c :: cs)) =
            .val (arithDelta c + (runSpan isArith arithDelta (tokens cs)).1) ::
              specRuns (runSpan isArith arithDelta (tokens cs)).2 := by
          rw [htok]
          simp [specRuns, hm, ha]
        cases st with
        | NoneSt =>
          rw [show goS .NoneSt (c :: cs) = goS (.ValArithm (arithDelta c)) cs
            from by simp [goS, hm, ha], ih, hspec]
          rw [mergeS_val, mergeS_none]
        | ValArithm n =>
          rw [show goS (.ValArithm n) (c :: cs) =
              goS (.ValArithm (n + arithDelta c)) cs from
              by simp [goS, hm, ha], ih, hspec, mergeS_val]
          simp [mergeS, add_assoc]
        | PtrArithm n =>
          rw [show goS (.PtrArithm n) (c :: cs) =
              .ptr n :: goS (.ValArithm (arithDelta c)) cs from
              by simp [goS, hm, ha], ih, hspec, mergeS_val]
          simp [mergeS]
      · by_cases hmf : isMeaningful c
        · have htok : tokens (c :: cs) = c :: tokens cs := by
            simp [tokens, List.filter_cons, hmf]
          have hspec : specRuns (tokens (c :: cs)) =
              ctlShape c :: specRuns (tokens cs) := by
            rw [htok]
            simp [specRuns, hm, ha]
          rw [show goS st (c :: cs) = flushS st ++ ctlShape c :: goS .NoneSt cs
            from by simp [goS, hm, ha, hmf], ih, hspec]
          rw [mergeS_none]
          exact (mergeS_ctl st c _).symm
        · have htok : tokens (c :: cs) = tokens cs := by
            simp [tokens, List.filter_cons, hmf]
          rw [show goS st (c :: cs) = goS st cs from by simp [goS, hm, ha, hmf],
            ih, htok]

theorem o1go_shapes :
    ∀ (cs : List Nat) (prog : List Inst) (st : AState) (stack : List Nat)
      (P : List Inst),
    o1go cs prog st stack = .ok P →
    (∀ i ∈ stack, ∃ t, prog[i]? = some (Inst.LoopStart t)) →
    P.map instShape = prog.map instShape ++ goS st cs := by
  intro cs
  induction cs with
  | nil =>
    intro prog st stack P hok hstk
    rcases stack with _ | ⟨i, stack⟩
    · simp only [o1go, List.isEmpty_nil, if_true, Except.ok.injEq] at hok
      subst hok
      rw [shapes_flushProg]
      cases st <;> simp [goS, flushS]
    · simp [o1go] at hok
  | cons c cs ih =>
    intro prog st stack P hok hstk
    by_cases h62 : c = 62
    · subst h62
      cases st with
      | PtrArithm n =>
        have hok' : o1go cs prog (.PtrArithm (n + 1)) stack = .ok P := by
          simpa [o1go] using hok
        rw [ih prog _ stack P hok' hstk]
        rfl
      | ValArithm n =>
        have hok' : o1go cs (prog ++ [.ValInc n]) (.PtrArithm 1) stack = .ok P := by
          simpa [o1go] using hok
        have hstk' := fun i hi => (stack_inv_extend prog .NoneSt [Inst.ValInc n] hstk) i hi
        rw [ih _ _ stack P hok' hstk']
        simp [goS, isMove, moveDelta, instShape, flushProg]
      | NoneSt =>
        have hok' : o1go cs prog (.PtrArithm 1) stack = .ok P := by
          simpa [o1go] using hok
        rw [ih prog _ stack P hok' hstk]
        rfl
    · by_cases h60 : c = 60
      · subst h60
        cases st with
        | PtrArithm n =>
          have hok' : o1go cs prog (.PtrArithm (n - 1)) stack = .ok P := by
            simpa [o1go] using hok
          rw [ih prog _ stack P hok' hstk]
          rfl
        | ValArithm n =>
          have hok' : o1go cs (prog ++ [.ValInc n]) (.PtrArithm (-1)) stack = .ok P := by
            simpa [o1go] using hok
          have hstk' := fun i hi => (stack_inv_extend prog .NoneSt [Inst.ValInc n] hstk) i hi
          rw [ih _ _ stack P hok' hstk']
          simp [goS, isMove, moveDelta, instShape, flushProg]
        | NoneSt =>
          have hok' : o1go cs prog (.PtrArithm (-1)) stack = .ok P := by
            simpa [o1go] using hok
          rw [ih prog _ stack P hok' hstk]
          rfl
      · by_cases h43 : c = 43
        · subst h43
          cases st with
          | ValArithm n =>
            have hok' : o1go cs prog (.ValArithm (n + 1)) stack = .ok P := by
              simpa [o1go] using hok
            rw [ih prog _ stack P hok' hstk]
            rfl
          | PtrArithm n =>
            have hok' : o1go cs (prog ++ [.PtrInc n]) (.ValArithm 1) stack = .ok P := by
              simpa [o1go] using hok
            have hstk' := fun i hi => (stack_inv_extend prog .NoneSt [Inst.PtrInc n] hstk) i hi
            rw [ih _ _ stack P hok' hstk']
            simp [goS, isMove, isArith, arithDelta, instShape, flushProg]
          | NoneSt =>
            have hok' : o1go cs prog (.ValArithm 1) stack = .ok P := by
              simpa [o1go] using hok
            rw [ih prog _ stack P hok' hstk]
            rfl
        · by_cases h45 : c = 45
          · subst h45
            cases st with
            | ValArithm n =>
              have hok' : o1go cs prog (.ValArithm (n - 1)) stack = .ok P := by
                simpa [o1go] using hok
              rw [ih prog _ stack P hok' hstk]
              rfl
            | PtrArithm n =>
              have hok' : o1go cs (prog ++ [.PtrInc n]) (.ValArithm (-1)) stack = .ok P := by
                simpa [o1go] using hok
              have hstk' := fun i hi =>
                (stack_inv_extend prog .NoneSt [Inst.PtrInc n] hstk) i hi
              rw [ih _ _ stack P hok' hstk']
              simp [goS, isMove, isArith, arithDelta, instShape, flushProg]
            | NoneSt =>
              have hok' : o1go cs prog (.ValArithm (-1)) stack = .ok P := by
                simpa [o1go] using hok
              rw [ih prog _ stack P hok' hstk]
              rfl
          · by_cases h91 : c = 91
            · subst h91
              have hok' : o1go cs (flushProg prog st ++ [.LoopStart 0]) .NoneSt
                  ((flushProg prog st).length :: stack) = .ok P := by
                simpa [o1go] using hok
              have hstk' : ∀ i ∈ (flushProg prog st).length :: stack,
                  ∃ t, (flushProg prog st ++ [Inst.LoopStart 0])[i]? =
                    some (Inst.LoopStart t) := by
                intro i hi
                rcases List.mem_cons.1 hi with rfl | hi'
                · exact ⟨0, List.getElem?_concat_length _ _⟩
                · exact stack_inv_extend prog st [Inst.LoopStart 0] hstk i hi'
              rw [ih _ _ _ P hok' hstk']
              rw [List.map_append, shapes_flushProg]
              simp [goS, isMove, isArith, isMeaningful, ctlShape, instShape]
            · by_cases h93 : c = 93
              · subst h93
                rcases stack with _ | ⟨start, rest⟩
                · simp [o1go] at hok
                · obtain ⟨t, hst⟩ := hstk start (List.mem_cons_self _ _)
                  have hq2 : (flushProg prog st ++
                      [Inst.LoopEnd (start + 1)])[start]? =
                      some (Inst.LoopStart t) :=
                    getElem?_append_some (flushProg_getElem? hst)
                  have hok' : o1go cs
                      ((flushProg prog st ++ [Inst.LoopEnd (start + 1)]).set start
                        (Inst.LoopStart (flushProg prog st ++
                          [Inst.LoopEnd (start + 1)]).length))
                      .NoneSt rest = .ok P := by
                    simpa [o1go] using hok
                  have hshapes : ((flushProg prog st ++
                      [Inst.LoopEnd (start + 1)]).set start
                        (Inst.LoopStart (flushProg prog st ++
                          [Inst.LoopEnd (start + 1)]).length)).map instShape =
                      (flushProg prog st ++
                        [Inst.LoopEnd (start + 1)]).map instShape := by
                    rw [List.map_set]
                    apply set_getElem?_id
                    rw [List.getElem?_map, hq2]
                    rfl
                  have hstk' : ∀ i ∈ rest,
                      ∃ t', ((flushProg prog st ++
                        [Inst.LoopEnd (start + 1)]).set start
                          (Inst.LoopStart (flushProg prog st ++
                            [Inst.LoopEnd (start + 1)]).length))[i]? =
                        some (Inst.LoopStart t') := by
                    intro i hi
                    rcases eq_or_ne i start with rfl | hne
                    · refine ⟨(flushProg prog st ++
                        [Inst.LoopEnd (i + 1)]).length, ?_⟩
                      rw [List.getElem?_set_self', hq2]
                      rfl
                    · obtain ⟨t', ht'⟩ := stack_inv_extend prog st
                        [Inst.LoopEnd (start + 1)] hstk i
                        (List.mem_cons_of_mem _ hi)
                      exact ⟨t', by rw [List.getElem?_set_ne hne.symm]; exact ht'⟩
                  rw [ih _ _ _ P hok' hstk', hshapes]
                  rw [List.map_append, shapes_flushProg]
                  simp [goS, isMove, isArith, isMeaningful, ctlShape, instShape]
              · by_cases h46 : c = 46
                · subst h46
                  have hok' : o1go cs (flushProg prog st ++ [.Output]) .NoneSt
                      stack = .ok P := by
                    simpa [o1go] using hok
                  have hstk' := fun i hi =>
                    (stack_inv_extend prog st [Inst.Output] hstk) i hi
                  rw [ih _ _ _ P hok' hstk']
                  rw [List.map_append, shapes_flushProg]
                  simp [goS, isMove, isArith, isMeaningful, ctlShape, instShape]
                · by_cases h44 : c = 44
                  · subst h44
                    have hok' : o1go cs (flushProg prog st ++ [.Input]) .NoneSt
                        stack = .ok P := by
                      simpa [o1go] using hok
                    have hstk' := fun i hi =>
                      (stack_inv_extend prog st [Inst.Input] hstk) i hi
                    rw [ih _ _ _ P hok' hstk']
                    rw [List.map_append, shapes_flushProg]
                    simp [goS, isMove, isArith, isMeaningful, ctlShape, instShape]
                  · have hok' : o1go cs prog st stack = .ok P := by
                      simpa [o1go, h62, h60, h43, h45, h91, h93, h46, h44]
                        using hok
                    rw [ih prog st stack P hok' hstk]
                    congr 1
                    simp [goS, isMove, isArith, isMeaningful,
                      h62, h60, h43, h45, h91, h93, h46, h44]

/-! ## Assembler well-formedness (C5, C6) -/

theorem flattenAt_length : ∀ (p : Nat) (ss : List Stmt),
    (flattenAt p ss).length = flatLenL ss := by
  intro p ss
  induction p, ss using flattenAt.induct <;>
    simp [flattenAt, flatLenL, *] <;> omega

theorem flatLenL_append : ∀ (a b : List Stmt),
    flatLenL (a ++ b) = flatLenL a + flatLenL b := by
  intro a b
  induction a with
  | nil => simp [flatLenL]
  | cons s rest ih => cases s <;> simp [flatLenL, ih] <;> omega

theorem flattenAt_append : ∀ (a : List Stmt) (p : Nat) (b : List Stmt),
    flattenAt p (a ++ b) =
      flattenAt p a ++ flattenAt (p + flatLenL a) b := by
  intro a
  induction a with
  | nil => intro p b; simp [flattenAt, flatLenL]
  | cons s rest ih =>
    intro p b
    cases s <;> simp [flattenAt, flatLenL, ih, Nat.add_assoc]

theorem AsmInv_extend : ∀ (stack : List Nat) (prog : List Inst) (s : Stmt),
    AsmInv stack prog →
    AsmInv stack (prog ++ flattenAt prog.length [s]) := by
  intro stack prog s h
  cases stack with
  | nil =>
    obtain ⟨ss, rfl⟩ := h
    exact ⟨ss ++ [s], by simp [flattenAt_append, flattenAt_length]⟩
  | cons i is =>
    obtain ⟨pre, ss, hpre, hlen, rfl⟩ := h
    refine ⟨pre, ss ++ [s], hpre, hlen, ?_⟩
    have hL : (pre ++ Inst.LoopStart 0 :: flattenAt (i + 1) ss).length
        = (i + 1) + flatLenL ss := by
      simp [flattenAt_length, hlen]
      omega
    rw [hL, flattenAt_append]
    simp [Nat.add_assoc]

theorem AsmInv_flush : ∀ (stack : List Nat) (prog : List Inst) (st : AState),
    AsmInv stack prog → AsmInv stack (flushProg prog st) := by
  intro stack prog st h
  cases st with
  | NoneSt => simpa [flushProg] using h
  | PtrArithm n =>
    simpa [flattenAt] using AsmInv_extend stack prog (.PtrInc n) h
  | ValArithm n =>
    simpa [flattenAt] using AsmInv_extend stack prog (.ValInc n) h

theorem o1go_AsmInv :
    ∀ (cs : List Nat) (prog : List Inst) (st : AState) (stack : List Nat)
      (P : List Inst),
    o1go cs prog st stack = .ok P → AsmInv stack prog →
    ∃ ss, P = flattenAt 0 ss := by
  intro cs
  induction cs with
  | nil =>
    intro prog st stack P hok hinv
    rcases stack with _ | ⟨i, is⟩
    · simp only [o1go, List.isEmpty_nil, if_true, Except.ok.injEq] at hok
      subst hok
      exact AsmInv_flush [] prog st hinv
    · simp [o1go] at hok
  | cons c cs ih =>
    intro prog st stack P hok hinv
    by_cases h62 : c = 62
    · subst h62
      cases st with
      | PtrArithm n => exact ih _ _ _ _ (by simpa [o1go] using hok) hinv
      | ValArithm n =>
        exact ih _ _ _ _ (by simpa [o1go] using hok)
          (by simpa [flattenAt] using AsmInv_extend stack prog (.ValInc n) hinv)
      | NoneSt => exact ih _ _ _ _ (by simpa [o1go] using hok) hinv
    · by_cases h60 : c = 60
      · subst h60
        cases st with
        | PtrArithm n => exact ih _ _ _ _ (by simpa [o1go] using hok) hinv
        | ValArithm n =>
          exact ih _ _ _ _ (by simpa [o1go] using hok)
            (by simpa [flattenAt] using AsmInv_extend stack prog (.ValInc n) hinv)
        | NoneSt => exact ih _ _ _ _ (by simpa [o1go] using hok) hinv
      · by_cases h43 : c = 43
        · subst h43
          cases st with
          | ValArithm n => exact ih _ _ _ _ (by simpa [o1go] using hok) hinv
          | PtrArithm n =>
            exact ih _ _ _ _ (by simpa [o1go] using hok)
              (by simpa [flattenAt] using
                AsmInv_extend stack prog (.PtrInc n) hinv)
          | NoneSt => exact ih _ _ _ _ (by simpa [o1go] using hok) hinv
        · by_cases h45 : c = 45
          · subst h45
            cases st with
            | ValArithm n => exact ih _ _ _ _ (by simpa [o1go] using hok) hinv
            | PtrArithm n =>
              exact ih _ _ _ _ (by simpa [o1go] using hok)
                (by simpa [flattenAt] using
                  AsmInv_extend stack prog (.PtrInc n) hinv)
            | NoneSt => exact ih _ _ _ _ (by simpa [o1go] using hok) hinv
          · by_cases h91 : c = 91
            · subst h91
              refine ih _ _ _ _ (by simpa [o1go] using hok) ?_
              exact ⟨flushProg prog st, [], AsmInv_flush stack prog st hinv,
                rfl, by simp [flattenAt]⟩
            · by_cases h93 : c = 93
              · subst h93
                rcases stack with _ | ⟨start, rest⟩
                · simp [o1go] at hok
                · obtain ⟨pre, ss, hpreInv, hlen, heq⟩ :=
                    AsmInv_flush (start :: rest) prog st hinv
                  have hL1 : (flushProg prog st).length =
                      start + 1 + flatLenL ss := by
                    rw [heq]
                    simp [flattenAt_length, hlen]
                    omega
                  have h3 : ((flushProg prog st ++
                      [Inst.LoopEnd (start + 1)]).set start
                        (Inst.LoopStart ((flushProg prog st).length + 1))) =
                      pre ++ flattenAt pre.length [Stmt.Loop ss] := by
                    have hL2 : (flushProg prog st).length + 1 =
                        start + flatLenL ss + 2 := by
                      omega
                    rw [hL2, heq]
                    rw [show (pre ++ Inst.LoopStart 0 :: flattenAt (start + 1) ss)
                        ++ [Inst.LoopEnd (start + 1)] =
                        pre ++ Inst.LoopStart 0 :: (flattenAt (start + 1) ss
                          ++ [Inst.LoopEnd (start + 1)]) from by simp]
                    rw [show start = pre.length from hlen.symm]
                    rw [List.set_append_right _ _ (Nat.le_refl _)]
                    simp [flattenAt, hlen]
                  refine ih _ _ _ _ (by simpa [o1go] using hok) ?_
                  rw [h3]
                  exact AsmInv_extend rest pre (.Loop ss) hpreInv
              · by_cases h46 : c = 46
                · subst h46
                  refine ih _ _ _ _ (by simpa [o1go] using hok) ?_
                  simpa [flattenAt] using AsmInv_extend stack
                    (flushProg prog st) .Output (AsmInv_flush stack prog st hinv)
                · by_cases h44 : c = 44
                  · subst h44
                    refine ih _ _ _ _ (by simpa [o1go] using hok) ?_
                    simpa [flattenAt] using AsmInv_extend stack
                      (flushProg prog st) .Input (AsmInv_flush stack prog st hinv)
                  · exact ih _ _ _ _
                      (by simpa [o1go, h62, h60, h43, h45, h91, h93, h46, h44]
                        using hok) hinv

theorem o1go_step_other (c : Nat) (h91 : ¬c = 91) (h93 : ¬c = 93)
    (cs : List Nat) (prog : List Inst) (st : AState) (stack : List Nat) :
    ∃ prog' st', o1go (c :: cs) prog st stack = o1go cs prog' st' stack := by
  by_cases h62 : c = 62
  · subst h62; cases st <;> exact ⟨_, _, rfl⟩
  by_cases h60 : c = 60
  · subst h60; cases st <;> exact ⟨_, _, rfl⟩
  by_cases h43 : c = 43
  · subst h43; cases st <;> exact ⟨_, _, rfl⟩
  by_cases h45 : c = 45
  · subst h45; cases st <;> exact ⟨_, _, rfl⟩
  by_cases h46 : c = 46
  · subst h46; exact ⟨_, _, rfl⟩
  by_cases h44 : c = 44
  · subst h44; exact ⟨_, _, rfl⟩
  exact ⟨prog, st, by simp [o1go, h62, h60, h43, h45, h91, h93, h46, h44]⟩

theorem o1go_close_err :
    ∀ (cs : List Nat) (prog : List Inst) (st : AState) (stack : List Nat),
    (∃ i, ((cs.take i).count 91) + stack.length < ((cs.take i).count 93)) →
    o1go cs prog st stack = .error .unmatchedClose := by
  intro cs
  induction cs with
  | nil =>
    intro prog st stack h
    obtain ⟨i, hi⟩ := h
    simp at hi
  | cons c cs ih =>
    intro prog st stack h
    obtain ⟨i, hi⟩ := h
    cases i with
    | zero => simp at hi
    | succ j =>
      rw [List.take_succ_cons] at hi
      by_cases h93 : c = 93
      · subst h93
        rcases stack with _ | ⟨start, rest⟩
        · cases st <;> rfl
        · have hj : ((cs.take j).count 91) + rest.length <
              ((cs.take j).count 93) := by
            simp [List.count_cons] at hi
            omega
          cases st <;>
            exact ih _ _ _ ⟨j, hj⟩
      · by_cases h91 : c = 91
        · subst h91
          have hj : ((cs.take j).count 91) + (stack.length + 1) <
              ((cs.take j).count 93) := by
            simp [List.count_cons] at hi
            omega
          cases st <;>
            exact ih _ _ _ ⟨j, by simpa using hj⟩
        · obtain ⟨prog', st', heq⟩ := o1go_step_other c h91 h93 cs prog st stack
          rw [heq]
          refine ih _ _ _ ⟨j, ?_⟩
          simp [List.count_cons, h91, h93] at hi
          omega

theorem o1go_open_err :
    ∀ (cs : List Nat) (prog : List Inst) (st : AState) (stack : List Nat),
    (∀ i, ((cs.take i).count 93) ≤ ((cs.take i).count 91) + stack.length) →
    ((cs.count 93) < (cs.count 91) + stack.length) →
    o1go cs prog st stack = .error .unmatchedOpen := by
  intro cs
  induction cs with
  | nil =>
    intro prog st stack _ htot
    rcases stack with _ | ⟨i, is⟩
    · simp at htot
    · rfl
  | cons c cs ih =>
    intro prog st stack hpre htot
    by_cases h93 : c = 93
    · subst h93
      rcases stack with _ | ⟨start, rest⟩
      · have := hpre 1
        simp at this
      · have hpre' : ∀ i, ((cs.take i).count 93) ≤
            ((cs.take i).count 91) + rest.length := by
          intro i
          have := hpre (i + 1)
          rw [List.take_succ_cons] at this
          simp [List.count_cons] at this
          omega
        have htot' : (cs.count 93) < (cs.count 91) + rest.length := by
          simp [List.count_cons] at htot
          omega
        cases st <;> exact ih _ _ _ hpre' htot'
    · by_cases h91 : c = 91
      · subst h91
        have hpre' : ∀ i, ((cs.take i).count 93) ≤
            ((cs.take i).count 91) + (stack.length + 1) := by
          intro i
          have := hpre (i + 1)
          rw [List.take_succ_cons] at this
          simp [List.count_cons] at this
          omega
        have htot' : (cs.count 93) < (cs.count 91) + (stack.length + 1) := by
          simp [List.count_cons] at htot
          omega
        cases st <;> exact ih _ _ _ (by simpa using hpre') (by simpa using htot')
      · obtain ⟨prog', st', heq⟩ := o1go_step_other c h91 h93 cs prog st stack
        rw [heq]
        refine ih _ _ _ (fun i => ?_) ?_
        · have := hpre (i + 1)
          rw [List.take_succ_cons] at this
          simp [List.count_cons, h91, h93] at this
          omega
        · simp [List.count_cons, h91, h93] at htot
          omega

theorem o1go_balanced_ok :
    ∀ (cs : List Nat) (prog : List Inst) (st : AState) (stack : List Nat),
    (∀ i, ((cs.take i).count 93) ≤ ((cs.take i).count 91) + stack.length) →
    ((cs.count 93) = (cs.count 91) + stack.length) →
    ∃ P, o1go cs prog st stack = .ok P := by
  intro cs
  induction cs with
  | nil =>
    intro prog st stack _ htot
    rcases stack with _ | ⟨i, is⟩
    · exact ⟨_, rfl⟩
    · simp at htot
  | cons c cs ih =>
    intro prog st stack hpre htot
    by_cases h93 : c = 93
    · subst h93
      rcases stack with _ | ⟨start, rest⟩
      · have := hpre 1
        simp at this
      · have hpre' : ∀ i, ((cs.take i).count 93) ≤
            ((cs.take i).count 91) + rest.length := by
          intro i
          have := hpre (i + 1)
          rw [List.take_succ_cons] at this
          simp [List.count_cons] at this
          omega
        have htot' : (cs.count 93) = (cs.count 91) + rest.length := by
          simp [List.count_cons] at htot
          omega
        cases st <;> exact ih _ _ _ hpre' htot'
    · by_cases h91 : c = 91
      · subst h91
        have hpre' : ∀ i, ((cs.take i).count 93) ≤
            ((cs.take i).count 91) + (stack.length + 1) := by
          intro i
          have := hpre (i + 1)
          rw [List.take_succ_cons] at this
          simp [List.count_cons] at this
          omega
        have htot' : (cs.count 93) = (cs.count 91) + (stack.length + 1) := by
          simp [List.count_cons] at htot
          omega
        cases st <;> exact ih _ _ _ (by simpa using hpre') (by simpa using htot')
      · obtain ⟨prog', st', heq⟩ := o1go_step_other c h91 h93 cs prog st stack
        rw [heq]
        refine ih _ _ _ (fun i => ?_) ?_
        · have := hpre (i + 1)
          rw [List.take_succ_cons] at this
          simp [List.count_cons, h91, h93] at this
          omega
        · simp [List.count_cons, h91, h93] at htot
          omega

theorem flattenAt_pairs :
    ∀ (p : Nat) (ss : List Stmt) (P : List Inst),
    (∀ j x, (flattenAt p ss)[j]? = some x → P[p + j]? = some x) →
    ∀ pr ∈ matchedPairs p ss,
      P[pr.1]? = some (.LoopStart (pr.2 + 1)) ∧
      P[pr.2]? = some (.LoopEnd (pr.1 + 1)) := by
  intro p ss
  induction p, ss using matchedPairs.induct with
  | case1 p =>
    intro P h pr hpr
    simp [matchedPairs] at hpr
  | case2 p body rest ihb ihr =>
    intro P h pr hpr
    simp only [matchedPairs, List.mem_cons, List.mem_append] at hpr
    rcases hpr with rfl | hpr | hpr
    · constructor
      · have h0 := h 0 (Inst.LoopStart (p + flatLenL body + 2))
          (by simp [flattenAt])
        simpa using h0
      · have hidx : (flattenAt p (Stmt.Loop body :: rest))[flatLenL body + 1]? =
            some (Inst.LoopEnd (p + 1)) := by
          simp only [flattenAt]
          rw [List.getElem?_cons_succ]
          rw [List.getElem?_append_right (by simp [flattenAt_length])]
          simp [flattenAt_length]
        have h1 := h (flatLenL body + 1) _ hidx
        simpa [Nat.add_assoc] using h1
    · refine ihb P ?_ pr hpr
      intro j x hj
      have hlt : j < flatLenL body := by
        have := (List.getElem?_eq_some.1 hj).1
        rwa [flattenAt_length] at this
      have hidx : (flattenAt p (Stmt.Loop body :: rest))[j + 1]? = some x := by
        simp only [flattenAt]
        rw [List.getElem?_cons_succ]
        rw [List.getElem?_append, if_pos (by rwa [flattenAt_length])]
        exact hj
      have hP := h (j + 1) x hidx
      rw [show p + (j + 1) = p + 1 + j from by omega] at hP
      exact hP
    · refine ihr P ?_ pr hpr
      intro j x hj
      have hidx : (flattenAt p (Stmt.Loop body :: rest))[flatLenL body + 2 + j]? = some x := by
        simp only [flattenAt]
        rw [show flatLenL body + 2 + j = (flatLenL body + 1 + j) + 1 from
          by omega]
        rw [List.getElem?_cons_succ]
        rw [List.getElem?_append_right (by simp [flattenAt_length]; omega)]
        rw [show flatLenL body + 1 + j - (flattenAt (p + 1) body).length =
          j + 1 from by simp [flattenAt_length]; omega]
        rw [List.getElem?_cons_succ]
        exact hj
      have hP := h _ _ hidx
      rw [show p + (flatLenL body + 2 + j) = p + flatLenL body + 2 + j from
        by omega] at hP
      exact hP
  | case3 p head rest hnl ih =>
    intro P h pr hpr
    have hmp : matchedPairs p (head :: rest) = matchedPairs (p + 1) rest := by
      cases head with
      | Loop body => exact absurd rfl (hnl body)
      | PtrInc n => simp [matchedPairs]
      | ValInc n => simp [matchedPairs]
      | Output => simp [matchedPairs]
      | Input => simp [matchedPairs]
    rw [hmp] at hpr
    refine ih P ?_ pr hpr
    intro j x hj
    have hflat : ∃ inst, flattenAt p (head :: rest) =
        inst :: flattenAt (p + 1) rest := by
      cases head with
      | Loop body => exact absurd rfl (hnl body)
      | PtrInc n => exact ⟨Inst.PtrInc n, by simp [flattenAt]⟩
      | ValInc n => exact ⟨Inst.ValInc n, by simp [flattenAt]⟩
      | Output => exact ⟨Inst.Output, by simp [flattenAt]⟩
      | Input => exact ⟨Inst.Input, by simp [flattenAt]⟩
    obtain ⟨inst, hf⟩ := hflat
    have hidx : (flattenAt p (head :: rest))[j + 1]? = some x := by
      rw [hf, List.getElem?_cons_succ]
      exact hj
    have hP := h (j + 1) x hidx
    rw [show p + (j + 1) = p + 1 + j from by omega] at hP
    exact hP

/-! ## Tree interpreter vs tree machine (C5) -/

theorem interpretRec_mono :
    ∀ (f : Nat) (p : List Stmt) (s s' : St),
    interpretRec f p s = .ok s' → interpretRec (f + 1) p s = .ok s' := by
  intro f
  induction f with
  | zero =>
    intro p s s' h
    cases p with
    | nil =>
      cases h
      rfl
    | cons x p' => simp [interpretRec] at h
  | succ f ih =>
    intro p s s' h
    cases p with
    | nil =>
      cases h
      rfl
    | cons x p' =>
      cases x with
      | PtrInc n =>
        simp only [interpretRec] at h ⊢
        exact ih _ _ _ h
      | ValInc n =>
        cases hc : adjustCell s n with
        | none => simp [interpretRec, hc] at h
        | some s2 =>
          simp only [interpretRec, hc] at h ⊢
          exact ih _ _ _ h
      | Output =>
        cases hc : outputCell s with
        | none => simp [interpretRec, hc] at h
        | some s2 =>
          simp only [interpretRec, hc] at h ⊢
          exact ih _ _ _ h
      | Input =>
        cases hc : takeInput s with
        | none => simp [interpretRec, hc] at h
        | some s2 =>
          simp only [interpretRec, hc] at h ⊢
          exact ih _ _ _ h
      | Loop body =>
        cases hc : readCell s with
        | none => simp [interpretRec, hc] at h
        | some v =>
          cases v with
          | zero =>
            simp only [interpretRec, hc] at h ⊢
            exact ih _ _ _ h
          | succ v =>
            simp only [interpretRec, hc] at h ⊢
            cases hb : interpretRec f body s with
            | ok s2 =>
              rw [hb] at h
              rw [ih _ _ _ hb]
              exact ih _ _ _ h
            | panic =>
              rw [hb] at h
              cases h
            | timeout =>
              rw [hb] at h
              cases h

theorem interpretRec_mono_le :
    ∀ {f g : Nat} (p : List Stmt) (s s' : St), f ≤ g →
    interpretRec f p s = .ok s' → interpretRec g p s = .ok s' := by
  intro f g p s s' hle h
  induction g, hle using Nat.le_induction with
  | base => exact h
  | succ g _ ih => exact interpretRec_mono g p s s' ih

theorem interpretRec_append_split :
    ∀ (f : Nat) (A B : List Stmt) (s s' : St),
    interpretRec f (A ++ B) s = .ok s' →
    ∃ s1, interpretRec f A s = .ok s1 ∧ interpretRec f B s1 = .ok s' := by
  intro f
  induction f with
  | zero =>
    intro A B s s' h
    cases A with
    | nil => exact ⟨s, rfl, h⟩
    | cons x A' => simp [interpretRec] at h
  | succ f ih =>
    intro A B s s' h
    cases A with
    | nil => exact ⟨s, rfl, h⟩
    | cons x A' =>
      simp only [List.cons_append] at h
      cases x with
      | PtrInc n =>
        simp only [interpretRec] at h
        obtain ⟨s1, h1, h2⟩ := ih A' B _ _ h
        exact ⟨s1, by simp only [interpretRec]; exact h1,
          interpretRec_mono _ _ _ _ h2⟩
      | ValInc n =>
        cases hc : adjustCell s n with
        | none => simp [interpretRec, hc] at h
        | some s2 =>
          simp only [interpretRec, hc] at h
          obtain ⟨s1, h1, h2⟩ := ih A' B _ _ h
          exact ⟨s1, by simp only [interpretRec, hc]; exact h1,
            interpretRec_mono _ _ _ _ h2⟩
      | Output =>
        cases hc : outputCell s with
        | none => simp [interpretRec, hc] at h
        | some s2 =>
          simp only [interpretRec, hc] at h
          obtain ⟨s1, h1, h2⟩ := ih A' B _ _ h
          exact ⟨s1, by simp only [interpretRec, hc]; exact h1,
            interpretRec_mono _ _ _ _ h2⟩
      | Input =>
        cases hc : takeInput s with
        | none => simp [interpretRec, hc] at h
        | some s2 =>
          simp only [interpretRec, hc] at h
          obtain ⟨s1, h1, h2⟩ := ih A' B _ _ h
          exact ⟨s1, by simp only [interpretRec, hc]; exact h1,
            interpretRec_mono _ _ _ _ h2⟩
      | Loop body =>
        cases hc : readCell s with
        | none => simp [interpretRec, hc] at h
        | some v =>
          cases v with
          | zero =>
            simp only [interpretRec, hc] at h
            obtain ⟨s1, h1, h2⟩ := ih A' B _ _ h
            exact ⟨s1, by simp only [interpretRec, hc]; exact h1,
              interpretRec_mono _ _ _ _ h2⟩
          | succ v =>
            simp only [interpretRec, hc] at h
            cases hb : interpretRec f body s with
            | ok s2 =>
              rw [hb] at h
              obtain ⟨s1, h1, h2⟩ := ih (.Loop body :: A') B s2 s'
                (by simpa using h)
              refine ⟨s1, ?_, interpretRec_mono _ _ _ _ h2⟩
              simp only [interpretRec, hc, hb]
              exact h1
            | panic =>
              rw [hb] at h
              cases h
            | timeout =>
              rw [hb] at h
              cases h

theorem treeStep_loop_eq (body rest : List Stmt)
    (K : List (List Stmt × List Stmt)) (s : St) :
    treeStep (.Loop body :: rest) K s = treeStep [] ((body, rest) :: K) s :=
  rfl

theorem iterM_add :
    ∀ (a b : Nat) (cur : List Stmt) (K : List (List Stmt × List Stmt))
      (s : St) c1 K1 s1,
    iterM a cur K s = some (c1, K1, s1) →
    iterM (a + b) cur K s = iterM b c1 K1 s1 := by
  intro a
  induction a with
  | zero =>
    intro b cur K s c1 K1 s1 h
    cases h
    rw [Nat.zero_add]
  | succ a ih =>
    intro b cur K s c1 K1 s1 h
    rw [show a + 1 + b = (a + b) + 1 from by omega]
    cases hs : treeStep cur K s with
    | cont c' K' s' =>
      rw [show iterM (a + 1) cur K s = iterM a c' K' s' from
        by simp [iterM, hs]] at h
      rw [show iterM ((a + b) + 1) cur K s = iterM (a + b) c' K' s' from
        by simp [iterM, hs]]
      exact ih b c' K' s' c1 K1 s1 h
    | done s' => simp [iterM, hs] at h
    | panic => simp [iterM, hs] at h

theorem iterM_treeRunM :
    ∀ (n : Nat) (cur : List Stmt) (K : List (List Stmt × List Stmt))
      (s : St) c1 K1 s1 (f : Nat),
    iterM n cur K s = some (c1, K1, s1) →
    treeRunM (n + f) cur K s = treeRunM f c1 K1 s1 := by
  intro n
  induction n with
  | zero =>
    intro cur K s c1 K1 s1 f h
    cases h
    rw [Nat.zero_add]
  | succ n ih =>
    intro cur K s c1 K1 s1 f h
    cases hs : treeStep cur K s with
    | cont c' K' s' =>
      rw [show iterM (n + 1) cur K s = iterM n c' K' s' from
        by simp [iterM, hs]] at h
      rw [show n + 1 + f = (n + f) + 1 from by omega]
      rw [show treeRunM ((n + f) + 1) cur K s = treeRunM (n + f) c' K' s'
        from by simp [treeRunM, hs]]
      exact ih c' K' s' c1 K1 s1 f h
    | done s' => simp [iterM, hs] at h
    | panic => simp [iterM, hs] at h

theorem interpretRec_iterM :
    ∀ (f : Nat) (cur : List Stmt) (s s' : St),
    interpretRec f cur s = .ok s' →
    ∀ K, ∃ n, iterM n cur K s = some ([], K, s') := by
  intro f
  induction f with
  | zero =>
    intro cur s s' h K
    cases cur with
    | nil =>
      cases h
      exact ⟨0, rfl⟩
    | cons x cur' => simp [interpretRec] at h
  | succ f ih =>
    intro cur s s' h K
    cases cur with
    | nil =>
      cases h
      exact ⟨0, rfl⟩
    | cons x cur' =>
      cases x with
      | PtrInc n =>
        simp only [interpretRec] at h
        obtain ⟨n1, h1⟩ := ih _ _ _ h K
        exact ⟨n1 + 1, by
          rw [show iterM (n1 + 1) (.PtrInc n :: cur') K s =
            iterM n1 cur' K (movePtr s n) from by simp [iterM, treeStep]]
          exact h1⟩
      | ValInc n =>
        cases hc : adjustCell s n with
        | none => simp [interpretRec, hc] at h
        | some s2 =>
          simp only [interpretRec, hc] at h
          obtain ⟨n1, h1⟩ := ih _ _ _ h K
          exact ⟨n1 + 1, by
            rw [show iterM (n1 + 1) (.ValInc n :: cur') K s =
              iterM n1 cur' K s2 from by simp [iterM, treeStep, hc]]
            exact h1⟩
      | Output =>
        cases hc : outputCell s with
        | none => simp [interpretRec, hc] at h
        | some s2 =>
          simp only [interpretRec, hc] at h
          obtain ⟨n1, h1⟩ := ih _ _ _ h K
          exact ⟨n1 + 1, by
            rw [show iterM (n1 + 1) (.Output :: cur') K s =
              iterM n1 cur' K s2 from by simp [iterM, treeStep, hc]]
            exact h1⟩
      | Input =>
        cases hc : takeInput s with
        | none => simp [interpretRec, hc] at h
        | some s2 =>
          simp only [interpretRec, hc] at h
          obtain ⟨n1, h1⟩ := ih _ _ _ h K
          exact ⟨n1 + 1, by
            rw [show iterM (n1 + 1) (.Input :: cur') K s =
              iterM n1 cur' K s2 from by simp [iterM, treeStep, hc]]
            exact h1⟩
      | Loop body =>
        cases hc : readCell s with
        | none => simp [interpretRec, hc] at h
        | some v =>
          cases v with
          | zero =>
            simp only [interpretRec, hc] at h
            obtain ⟨n1, h1⟩ := ih _ _ _ h K
            exact ⟨n1 + 1, by
              rw [show iterM (n1 + 1) (.Loop body :: cur') K s =
                iterM n1 cur' K s from by simp [iterM, treeStep, hc]]
              exact h1⟩
          | succ v =>
            simp only [interpretRec, hc] at h
            cases hb : interpretRec f body s with
            | ok s2 =>
              rw [hb] at h
              obtain ⟨n1, h1⟩ := ih _ _ _ hb ((body, cur') :: K)
              obtain ⟨n2, h2⟩ := ih _ _ _ h K
              cases n2 with
              | zero => cases h2
              | succ m =>
                have h2' : iterM (m + 1) [] ((body, cur') :: K) s2 =
                    some ([], K, s') := by
                  rw [show iterM (m + 1) [] ((body, cur') :: K) s2 =
                    iterM (m + 1) (.Loop body :: cur') K s2 from by
                      simp only [iterM, treeStep_loop_eq]]
                  exact h2
                refine ⟨1 + (n1 + (m + 1)), ?_⟩
                have hfirst : iterM 1 (.Loop body :: cur') K s =
                    some (body, (body, cur') :: K, s) := by
                  simp [iterM, treeStep, hc]
                rw [iterM_add 1 (n1 + (m + 1)) _ _ _ _ _ _ hfirst]
                rw [iterM_add n1 (m + 1) _ _ _ _ _ _ h1]
                exact h2'
            | panic =>
              rw [hb] at h
              cases h
            | timeout =>
              rw [hb] at h
              cases h

theorem treeRunM_interpretRec :
    ∀ (g : Nat) (cur : List Stmt) (K : List (List Stmt × List Stmt))
      (s s' : St),
    treeRunM g cur K s = .ok s' →
    ∃ f, interpretRec f (cur ++ decodeK K) s = .ok s' := by
  intro g
  induction g with
  | zero =>
    intro cur K s s' h
    cases cur with
    | nil =>
      cases K with
      | nil =>
        have hs : s = s' := by simpa [treeRunM, treeStep] using h
        exact ⟨0, by simp [decodeK, hs, interpretRec]⟩
      | cons fr K' =>
        obtain ⟨body, rest⟩ := fr
        cases hc : readCell s with
        | none => simp [treeRunM, treeStep, hc] at h
        | some v => cases v <;> simp [treeRunM, treeStep, hc] at h
    | cons x cur' =>
      cases x with
      | PtrInc n => simp [treeRunM, treeStep] at h
      | ValInc n =>
        cases hc : adjustCell s n <;> simp [treeRunM, treeStep, hc] at h
      | Output =>
        cases hc : outputCell s <;> simp [treeRunM, treeStep, hc] at h
      | Input =>
        cases hc : takeInput s <;> simp [treeRunM, treeStep, hc] at h
      | Loop body =>
        cases hc : readCell s with
        | none => simp [treeRunM, treeStep, hc] at h
        | some v => cases v <;> simp [treeRunM, treeStep, hc] at h
  | succ g ih =>
    intro cur K s s' h
    cases cur with
    | nil =>
      cases K with
      | nil =>
        have hs : s = s' := by simpa [treeRunM, treeStep] using h
        exact ⟨0, by simp [decodeK, hs, interpretRec]⟩
      | cons fr K' =>
        obtain ⟨body, rest⟩ := fr
        cases hc : readCell s with
        | none => simp [treeRunM, treeStep, hc] at h
        | some v =>
          cases v with
          | zero =>
            have h' : treeRunM g rest K' s = .ok s' := by
              simpa [treeRunM, treeStep, hc] using h
            obtain ⟨f, hf⟩ := ih _ _ _ _ h'
            refine ⟨f + 1, ?_⟩
            have : interpretRec (f + 1)
                (.Loop body :: (rest ++ decodeK K')) s = .ok s' := by
              simp only [interpretRec, hc]
              exact hf
            simpa [decodeK] using this
          | succ v =>
            have h' : treeRunM g body ((body, rest) :: K') s = .ok s' := by
              simpa [treeRunM, treeStep, hc] using h
            obtain ⟨f, hf⟩ := ih _ _ _ _ h'
            have hf' : interpretRec f
                (body ++ (.Loop body :: (rest ++ decodeK K'))) s = .ok s' := by
              simpa [decodeK] using hf
            obtain ⟨s1, hA, hB⟩ := interpretRec_append_split f _ _ _ _ hf'
            refine ⟨f + 1, ?_⟩
            have : interpretRec (f + 1)
                (.Loop body :: (rest ++ decodeK K')) s = .ok s' := by
              simp only [interpretRec, hc, hA]
              exact hB
            simpa [decodeK] using this
    | cons x cur' =>
      cases x with
      | PtrInc n =>
        have h' : treeRunM g cur' K (movePtr s n) = .ok s' := by
          simpa [treeRunM, treeStep] using h
        obtain ⟨f, hf⟩ := ih _ _ _ _ h'
        exact ⟨f + 1, by simpa [interpretRec] using hf⟩
      | ValInc n =>
        cases hc : adjustCell s n with
        | none => simp [treeRunM, treeStep, hc] at h
        | some s2 =>
          have h' : treeRunM g cur' K s2 = .ok s' := by
            simpa [treeRunM, treeStep, hc] using h
          obtain ⟨f, hf⟩ := ih _ _ _ _ h'
          exact ⟨f + 1, by simpa [interpretRec, hc] using hf⟩
      | Output =>
        cases hc : outputCell s with
        | none => simp [treeRunM, treeStep, hc] at h
        | some s2 =>
          have h' : treeRunM g cur' K s2 = .ok s' := by
            simpa [treeRunM, treeStep, hc] using h
          obtain ⟨f, hf⟩ := ih _ _ _ _ h'
          exact ⟨f + 1, by simpa [interpretRec, hc] using hf⟩
      | Input =>
        cases hc : takeInput s with
        | none => simp [treeRunM, treeStep, hc] at h
        | some s2 =>
          have h' : treeRunM g cur' K s2 = .ok s' := by
            simpa [treeRunM, treeStep, hc] using h
          obtain ⟨f, hf⟩ := ih _ _ _ _ h'
          exact ⟨f + 1, by simpa [interpretRec, hc] using hf⟩
      | Loop body =>
        cases hc : readCell s with
        | none => simp [treeRunM, treeStep, hc] at h
        | some v =>
          cases v with
          | zero =>
            have h' : treeRunM g cur' K s = .ok s' := by
              simpa [treeRunM, treeStep, hc] using h
            obtain ⟨f, hf⟩ := ih _ _ _ _ h'
            exact ⟨f + 1, by simpa [interpretRec, hc] using hf⟩
          | succ v =>
            have h' : treeRunM g body ((body, cur') :: K) s = .ok s' := by
              simpa [treeRunM, treeStep, hc] using h
            obtain ⟨f, hf⟩ := ih _ _ _ _ h'
            have hf' : interpretRec f
                (body ++ (.Loop body :: (cur' ++ decodeK K))) s = .ok s' := by
              simpa [decodeK] using hf
            obtain ⟨s1, hA, hB⟩ := interpretRec_append_split f _ _ _ _ hf'
            refine ⟨f + 1, ?_⟩
            have : interpretRec (f + 1)
                (.Loop body :: (cur' ++ decodeK K)) s = .ok s' := by
              simp only [interpretRec, hc, hA]
              exact hB
            simpa using this

/-! ## Tree builder inverts flattening (C5) -/

theorem compileRecF_snd_len : ∀ (f : Nat) (l : List Inst),
    (compileRecF f l).2.length ≤ l.length := by
  intro f l
  induction f, l using compileRecF.induct <;> simp [compileRecF] <;> omega

theorem compileRecF_fuel : ∀ (n : Nat) (l : List Inst) (f : Nat),
    l.length ≤ n → l.length ≤ f →
    compileRecF f l = compileRecF l.length l := by
  intro n
  induction n with
  | zero =>
    intro l f h0 _
    have hl : l = [] := List.eq_nil_of_length_eq_zero (Nat.le_zero.mp h0)
    subst hl
    cases f <;> rfl
  | succ n ih =>
    intro l f h0 hf
    cases l with
    | nil => cases f <;> rfl
    | cons x rest =>
      cases f with
      | zero => simp at hf
      | succ f =>
        have hr0 : rest.length ≤ n := by
          simp at h0
          omega
        have hrf : rest.length ≤ f := by
          simp at hf
          omega
        have e1 : compileRecF f rest = compileRecF rest.length rest :=
          ih rest f hr0 hrf
        cases x with
        | LoopStart t =>
          have hr2 := compileRecF_snd_len rest.length rest
          have e2 : compileRecF f (compileRecF rest.length rest).2 =
              compileRecF (compileRecF rest.length rest).2.length
                (compileRecF rest.length rest).2 :=
            ih _ f (by omega) (by omega)
          have e3 : compileRecF rest.length (compileRecF rest.length rest).2 =
              compileRecF (compileRecF rest.length rest).2.length
                (compileRecF rest.length rest).2 :=
            ih _ rest.length (by omega) (by omega)
          simp only [compileRecF, List.length_cons]
          rw [e1, e2, e3]
        | LoopEnd t => simp [compileRecF]
        | PtrInc m =>
          simp only [compileRecF, List.length_cons]
          rw [e1]
        | ValInc m =>
          simp only [compileRecF, List.length_cons]
          rw [e1]
        | Output =>
          simp only [compileRecF, List.length_cons]
          rw [e1]
        | Input =>
          simp only [compileRecF, List.length_cons]
          rw [e1]

theorem compileRecF_flatten :
    ∀ (p : Nat) (ss : List Stmt) (rest : List Inst) (f : Nat),
    flatLenL ss + rest.length ≤ f →
    compileRecF f (flattenAt p ss ++ rest) =
      (ss ++ (compileRecF rest.length rest).1,
        (compileRecF rest.length rest).2) := by
  intro p ss
  induction p, ss using flattenAt.induct with
  | case1 p =>
    intro rest f h
    simp only [flatLenL] at h
    simp only [flattenAt, List.nil_append]
    rw [compileRecF_fuel f rest f (by omega) (by omega)]
  | case2 p n rest' ih =>
    intro rest f h
    simp only [flatLenL] at h
    cases f with
    | zero => omega
    | succ f =>
      simp only [flattenAt, List.cons_append, compileRecF]
      rw [ih rest f (by omega)]
  | case3 p n rest' ih =>
    intro rest f h
    simp only [flatLenL] at h
    cases f with
    | zero => omega
    | succ f =>
      simp only [flattenAt, List.cons_append, compileRecF]
      rw [ih rest f (by omega)]
  | case4 p rest' ih =>
    intro rest f h
    simp only [flatLenL] at h
    cases f with
    | zero => omega
    | succ f =>
      simp only [flattenAt, List.cons_append, compileRecF]
      rw [ih rest f (by omega)]
  | case5 p rest' ih =>
    intro rest f h
    simp only [flatLenL] at h
    cases f with
    | zero => omega
    | succ f =>
      simp only [flattenAt, List.cons_append, compileRecF]
      rw [ih rest f (by omega)]
  | case6 p body rest' ihb ihr =>
    intro rest f h
    simp only [flatLenL] at h
    cases f with
    | zero => omega
    | succ f =>
      have hlb := flattenAt_length (p + 1) body
      have hlr := flattenAt_length (p + flatLenL body + 2) rest'
      simp only [flattenAt, List.cons_append, List.append_assoc, compileRecF]
      rw [ihb (Inst.LoopEnd (p + 1) ::
          (flattenAt (p + flatLenL body + 2) rest' ++ rest)) f
        (by simp [hlr]; omega)]
      rw [show compileRecF (Inst.LoopEnd (p + 1) ::
          (flattenAt (p + flatLenL body + 2) rest' ++ rest)).length
          (Inst.LoopEnd (p + 1) ::
            (flattenAt (p + flatLenL body + 2) rest' ++ rest)) =
          ([], flattenAt (p + flatLenL body + 2) rest' ++ rest) from by
        simp [compileRecF]]
      rw [ihr rest f (by omega)]
      simp

theorem o2compile_flatten (ss : List Stmt) :
    o2compile (flattenAt 0 ss) = ss := by
  unfold o2compile
  have h := compileRecF_flatten 0 ss [] (flattenAt 0 ss).length
    (by simp [flattenAt_length])
  simp only [List.append_nil] at h
  rw [h]
  simp [compileRecF]

/-! ## Lockstep between the tree machine and the flat interpreter (C5) -/

theorem segAt_cons {P : List Inst} {pc : Nat} {inst : Inst} {xs : List Inst}
    (h : SegAt P pc (inst :: xs)) :
    P[pc]? = some inst ∧ SegAt P (pc + 1) xs := by
  constructor
  · have h0 := h 0 inst (by simp)
    simpa using h0
  · intro j x hj
    have hx := h (j + 1) x (by simpa using hj)
    rwa [show pc + (j + 1) = pc + 1 + j from by omega] at hx

theorem segAt_append {P : List Inst} {pc : Nat} {A B : List Inst}
    (h : SegAt P pc (A ++ B)) :
    SegAt P pc A ∧ SegAt P (pc + A.length) B := by
  constructor
  · intro j x hj
    exact h j x (getElem?_append_some hj)
  · intro j x hj
    have hx := h (A.length + j) x (by
      rw [List.getElem?_append_right (by omega)]
      simpa using hj)
    rwa [show pc + (A.length + j) = pc + A.length + j from by omega] at hx

theorem framesRep_nil_inv {P : List Inst} {pc : Nat}
    (h : FramesRep P pc []) : pc = P.length := by
  cases h
  rfl

theorem cfgRep_halt {P : List Inst} {pc : Nat} {s : St}
    (h : CfgRep P [] [] pc) : P[pc]? = none ∧ treeStep [] [] s = .done s := by
  obtain ⟨_, h2⟩ := h
  rw [show pc + flatLenL [] = pc from by simp [flatLenL]] at h2
  have := framesRep_nil_inv h2
  subst this
  exact ⟨List.getElem?_eq_none (Nat.le_refl _), rfl⟩

theorem framesRep_cons_inv {P : List Inst} {pc : Nat} {body rest : List Stmt}
    {K : List (List Stmt × List Stmt)}
    (h : FramesRep P pc ((body, rest) :: K)) :
    ∃ q, pc = q + 1 + flatLenL body ∧
      SegAt P (q + 1) (flattenAt (q + 1) body) ∧
      P[pc]? = some (.LoopEnd (q + 1)) ∧
      SegAt P (pc + 1) (flattenAt (pc + 1) rest) ∧
      FramesRep P (pc + 1 + flatLenL rest) K := by
  cases h with
  | cons hp hbody hLE hrest hK => exact ⟨_, hp, hbody, hLE, hrest, hK⟩

theorem treeRunM_zero_eq {cur : List Stmt} {K : List (List Stmt × List Stmt)}
    {s : St} (h : ∀ s0, treeStep cur K s ≠ .done s0) :
    treeRunM 0 cur K s = .timeout := by
  cases hs : treeStep cur K s with
  | done s0 => exact absurd hs (h s0)
  | panic => simp [treeRunM, hs]
  | cont c1 K1 s1 => simp [treeRunM, hs]

theorem treeStep_cons_not_done (x : Stmt) (cur' : List Stmt)
    (K : List (List Stmt × List Stmt)) (s : St) :
    ∀ s0, treeStep (x :: cur') K s ≠ .done s0 := by
  intro s0
  cases x with
  | PtrInc n => simp [treeStep]
  | ValInc n => cases hc : adjustCell s n <;> simp [treeStep, hc]
  | Output => cases hc : outputCell s <;> simp [treeStep, hc]
  | Input => cases hc : takeInput s <;> simp [treeStep, hc]
  | Loop body =>
    cases hc : readCell s with
    | none => simp [treeStep, hc]
    | some v => cases v <;> simp [treeStep, hc]

theorem treeStep_frame_not_done (body rest : List Stmt)
    (K : List (List Stmt × List Stmt)) (s : St) :
    ∀ s0, treeStep [] ((body, rest) :: K) s ≠ .done s0 := by
  intro s0
  cases hc : readCell s with
  | none => simp [treeStep, hc]
  | some v => cases v <;> simp [treeStep, hc]

theorem cfgRep_head_some {P : List Inst} {pc : Nat}
    {K : List (List Stmt × List Stmt)} {x : Stmt} {cur' : List Stmt}
    (h : CfgRep P (x :: cur') K pc) : ∃ inst, P[pc]? = some inst := by
  obtain ⟨h1, _⟩ := h
  cases x with
  | PtrInc n =>
    exact ⟨.PtrInc n, (segAt_cons (show SegAt P pc
      (Inst.PtrInc n :: flattenAt (pc + 1) cur') from by
        simpa [flattenAt] using h1)).1⟩
  | ValInc n =>
    exact ⟨.ValInc n, (segAt_cons (show SegAt P pc
      (Inst.ValInc n :: flattenAt (pc + 1) cur') from by
        simpa [flattenAt] using h1)).1⟩
  | Output =>
    exact ⟨.Output, (segAt_cons (show SegAt P pc
      (Inst.Output :: flattenAt (pc + 1) cur') from by
        simpa [flattenAt] using h1)).1⟩
  | Input =>
    exact ⟨.Input, (segAt_cons (show SegAt P pc
      (Inst.Input :: flattenAt (pc + 1) cur') from by
        simpa [flattenAt] using h1)).1⟩
  | Loop body =>
    exact ⟨.LoopStart (pc + flatLenL body + 2), (segAt_cons (show SegAt P pc
      (Inst.LoopStart (pc + flatLenL body + 2) ::
        (flattenAt (pc + 1) body ++ (Inst.LoopEnd (pc + 1) ::
          flattenAt (pc + flatLenL body + 2) cur'))) from by
        simpa [flattenAt] using h1)).1⟩

theorem cfgRep_cons_parts {P : List Inst} {pc : Nat}
    {K : List (List Stmt × List Stmt)} {x : Stmt} {cur' : List Stmt}
    (inst : Inst)
    (hx : flattenAt pc (x :: cur') = inst :: flattenAt (pc + 1) cur')
    (hlen : flatLenL (x :: cur') = 1 + flatLenL cur')
    (h : CfgRep P (x :: cur') K pc) :
    P[pc]? = some inst ∧ CfgRep P cur' K (pc + 1) := by
  obtain ⟨h1, h2⟩ := h
  rw [hx] at h1
  obtain ⟨hP, hseg⟩ := segAt_cons h1
  refine ⟨hP, hseg, ?_⟩
  rw [show pc + 1 + flatLenL cur' = pc + flatLenL (x :: cur') from by
    rw [hlen]; omega]
  exact h2

theorem cfgRep_loop_parts {P : List Inst} {pc : Nat}
    {K : List (List Stmt × List Stmt)} {body cur' : List Stmt}
    (h : CfgRep P (.Loop body :: cur') K pc) :
    P[pc]? = some (.LoopStart (pc + flatLenL body + 2)) ∧
    SegAt P (pc + 1) (flattenAt (pc + 1) body) ∧
    P[pc + 1 + flatLenL body]? = some (.LoopEnd (pc + 1)) ∧
    SegAt P (pc + flatLenL body + 2)
      (flattenAt (pc + flatLenL body + 2) cur') ∧
    FramesRep P (pc + flatLenL body + 2 + flatLenL cur') K := by
  obtain ⟨h1, h2⟩ := h
  rw [show flattenAt pc (.Loop body :: cur') =
      Inst.LoopStart (pc + flatLenL body + 2) ::
        (flattenAt (pc + 1) body ++ (Inst.LoopEnd (pc + 1) ::
          flattenAt (pc + flatLenL body + 2) cur')) from by
    simp [flattenAt]] at h1
  obtain ⟨hP, h1'⟩ := segAt_cons h1
  obtain ⟨hbody, h1''⟩ := segAt_append h1'
  rw [flattenAt_length] at h1''
  obtain ⟨hLE, hrest⟩ := segAt_cons h1''
  rw [show pc + 1 + flatLenL body + 1 = pc + flatLenL body + 2 from
    by omega] at hrest
  rw [show pc + flatLenL (Stmt.Loop body :: cur') =
      pc + flatLenL body + 2 + flatLenL cur' from by
    simp [flatLenL]; omega] at h2
  exact ⟨hP, hbody, hLE, hrest, h2⟩

theorem treeRunM_flatRun :
    ∀ (P : List Inst) (f : Nat) (cur : List Stmt)
      (K : List (List Stmt × List Stmt)) (pc : Nat) (s : St),
    CfgRep P cur K pc → treeRunM f cur K s = flatRun P f pc s := by
  intro P f
  induction f with
  | zero =>
    intro cur K pc s h
    cases cur with
    | nil =>
      cases K with
      | nil =>
        obtain ⟨hnone, hstep⟩ := cfgRep_halt (s := s) h
        simp [treeRunM, hstep, flatRun, hnone]
      | cons fr K' =>
        obtain ⟨body, rest⟩ := fr
        obtain ⟨h1, h2⟩ := h
        rw [show pc + flatLenL [] = pc from by simp [flatLenL]] at h2
        obtain ⟨q, hpq, hbody, hLE, hrest, hK⟩ := framesRep_cons_inv h2
        rw [treeRunM_zero_eq (treeStep_frame_not_done body rest K' s)]
        simp [flatRun, hLE]
    | cons x cur' =>
      obtain ⟨inst, hP⟩ := cfgRep_head_some h
      rw [treeRunM_zero_eq (treeStep_cons_not_done x cur' K s)]
      simp [flatRun, hP]
  | succ f ih =>
    intro cur K pc s h
    cases cur with
    | nil =>
      cases K with
      | nil =>
        obtain ⟨hnone, hstep⟩ := cfgRep_halt (s := s) h
        simp [treeRunM, hstep, flatRun, hnone]
      | cons fr K' =>
        obtain ⟨body, rest⟩ := fr
        obtain ⟨h1, h2⟩ := h
        rw [show pc + flatLenL [] = pc from by simp [flatLenL]] at h2
        obtain ⟨q, hpq, hbody, hLE, hrest, hK⟩ := framesRep_cons_inv h2
        cases hc : readCell s with
        | none =>
          rw [show treeRunM (f + 1) [] ((body, rest) :: K') s = .panic from
            by simp [treeRunM, treeStep, hc]]
          rw [show flatRun P (f + 1) pc s = .panic from
            by simp [flatRun, hLE, hc]]
        | some v =>
          cases v with
          | zero =>
            rw [show treeRunM (f + 1) [] ((body, rest) :: K') s =
              treeRunM f rest K' s from by simp [treeRunM, treeStep, hc]]
            rw [show flatRun P (f + 1) pc s = flatRun P f (pc + 1) s from
              by simp [flatRun, hLE, hc]]
            exact ih rest K' (pc + 1) s ⟨hrest, hK⟩
          | succ v =>
            rw [show treeRunM (f + 1) [] ((body, rest) :: K') s =
              treeRunM f body ((body, rest) :: K') s from
              by simp [treeRunM, treeStep, hc]]
            rw [show flatRun P (f + 1) pc s = flatRun P f (q + 1) s from
              by simp [flatRun, hLE, hc]]
            refine ih body ((body, rest) :: K') (q + 1) s ⟨hbody, ?_⟩
            rw [show q + 1 + flatLenL body = pc from by omega]
            exact h2
    | cons x cur' =>
      cases x with
      | PtrInc n =>
        obtain ⟨hP, hcfg⟩ := cfgRep_cons_parts (Inst.PtrInc n) (by simp [flattenAt])
          (by simp [flatLenL]) h
        rw [show treeRunM (f + 1) (.PtrInc n :: cur') K s =
          treeRunM f cur' K (movePtr s n) from by simp [treeRunM, treeStep]]
        rw [show flatRun P (f + 1) pc s = flatRun P f (pc + 1) (movePtr s n)
          from by simp [flatRun, hP]]
        exact ih _ _ _ _ hcfg
      | ValInc n =>
        obtain ⟨hP, hcfg⟩ := cfgRep_cons_parts (Inst.ValInc n) (by simp [flattenAt])
          (by simp [flatLenL]) h
        cases hc : adjustCell s n with
        | none =>
          rw [show treeRunM (f + 1) (.ValInc n :: cur') K s = .panic from
            by simp [treeRunM, treeStep, hc]]
          rw [show flatRun P (f + 1) pc s = .panic from
            by simp [flatRun, hP, hc]]
        | some s2 =>
          rw [show treeRunM (f + 1) (.ValInc n :: cur') K s =
            treeRunM f cur' K s2 from by simp [treeRunM, treeStep, hc]]
          rw [show flatRun P (f + 1) pc s = flatRun P f (pc + 1) s2 from
            by simp [flatRun, hP, hc]]
          exact ih _ _ _ _ hcfg
      | Output =>
        obtain ⟨hP, hcfg⟩ := cfgRep_cons_parts Inst.Output (by simp [flattenAt])
          (by simp [flatLenL]) h
        cases hc : outputCell s with
        | none =>
          rw [show treeRunM (f + 1) (.Output :: cur') K s = .panic from
            by simp [treeRunM, treeStep, hc]]
          rw [show flatRun P (f + 1) pc s = .panic from
            by simp [flatRun, hP, hc]]
        | some s2 =>
          rw [show treeRunM (f + 1) (.Output :: cur') K s =
            treeRunM f cur' K s2 from by simp [treeRunM, treeStep, hc]]
          rw [show flatRun P (f + 1) pc s = flatRun P f (pc + 1) s2 from
            by simp [flatRun, hP, hc]]
          exact ih _ _ _ _ hcfg
      | Input =>
        obtain ⟨hP, hcfg⟩ := cfgRep_cons_parts Inst.Input (by simp [flattenAt])
          (by simp [flatLenL]) h
        cases hc : takeInput s with
        | none =>
          rw [show treeRunM (f + 1) (.Input :: cur') K s = .panic from
            by simp [treeRunM, treeStep, hc]]
          rw [show flatRun P (f + 1) pc s = .panic from
            by simp [flatRun, hP, hc]]
        | some s2 =>
          rw [show treeRunM (f + 1) (.Input :: cur') K s =
            treeRunM f cur' K s2 from by simp [treeRunM, treeStep, hc]]
          rw [show flatRun P (f + 1) pc s = flatRun P f (pc + 1) s2 from
            by simp [flatRun, hP, hc]]
          exact ih _ _ _ _ hcfg
      | Loop body =>
        obtain ⟨hP, hbody, hLE, hrest, hfr⟩ := cfgRep_loop_parts h
        cases hc : readCell s with
        | none =>
          rw [show treeRunM (f + 1) (.Loop body :: cur') K s = .panic from
            by simp [treeRunM, treeStep, hc]]
          rw [show flatRun P (f + 1) pc s = .panic from
            by simp [flatRun, hP, hc]]
        | some v =>
          cases v with
          | zero =>
            rw [show treeRunM (f + 1) (.Loop body :: cur') K s =
              treeRunM f cur' K s from by simp [treeRunM, treeStep, hc]]
            rw [show flatRun P (f + 1) pc s =
              flatRun P f (pc + flatLenL body + 2) s from
              by simp [flatRun, hP, hc]]
            exact ih cur' K (pc + flatLenL body + 2) s ⟨hrest, hfr⟩
          | succ v =>
            rw [show treeRunM (f + 1) (.Loop body :: cur') K s =
              treeRunM f body ((body, cur') :: K) s from
              by simp [treeRunM, treeStep, hc]]
            rw [show flatRun P (f + 1) pc s = flatRun P f (pc + 1) s from
              by simp [flatRun, hP, hc]]
            refine ih body ((body, cur') :: K) (pc + 1) s ⟨hbody, ?_⟩
            refine FramesRep.cons (q := pc) rfl hbody hLE ?_ ?_
            · rw [show pc + 1 + flatLenL body + 1 = pc + flatLenL body + 2
                from by omega]
              exact hrest
            · rw [show pc + 1 + flatLenL body + 1 + flatLenL cur' =
                pc + flatLenL body + 2 + flatLenL cur' from by omega]
              exact hfr

/-! ## Claim theorems -/

/-- C1: the claim states that the Loop Optimizer returns a tree of the
same shape, with every input `Loop` still a `Loop` and the set of loops
unchanged.  The code violates this: `optimize` `flat_map`s
`optimize_loop`, and `optimize_loop` returns the bare body list, so the
`Loop` node itself is deleted and its body spliced into the parent
sequence.  On the tree `[Loop []]` (source `[]`) the optimizer returns
`[]`: the input has one loop, the output none. -/
theorem C1_loop_node_dropped :
    optimize [Stmt.Loop []] = some ([], []) ∧
    numLoops [Stmt.Loop []] = 1 ∧ numLoops ([] : List Stmt) = 0 :=
  ⟨rfl, rfl, rfl⟩

/-- C2: the claim states that a loop whose body the optimizer declines
to rewrite behaves identically under the Tree Interpreter.  The code
violates this: on the tree of source `++[-].` the loop body `[-]` is
declined (its gate step is −1, not 1), but the emitted program has the
loop spliced away, so the original program outputs byte 0 while the
optimized program outputs byte 1. -/
theorem C2_declined_loop_behavior_changed :
    optimize [Stmt.ValInc 2, Stmt.Loop [Stmt.ValInc (-1)], Stmt.Output] =
      some ([Stmt.ValInc 2, Stmt.ValInc (-1), Stmt.Output], []) ∧
    runOut 20 [Stmt.ValInc 2, Stmt.Loop [Stmt.ValInc (-1)], Stmt.Output] []
      = some [0] ∧
    runOut 20 [Stmt.ValInc 2, Stmt.ValInc (-1), Stmt.Output] [] = some [1] := by
  refine ⟨rfl, by decide, by decide⟩

/-- C3: the claim (and the spec's end-to-end scenario) says the `o2`
pipeline on source `++>+++<[->+<]` with empty input ends with cell 0 = 0
and cell 1 = 5.  Because the optimizer splices the declined loop's body
in place of the loop, the loop executes exactly once, and the code
actually ends with cell 0 = 1 and cell 1 = 4. -/
theorem C3_move_loop_pipeline_result :
    pipeCells [43, 43, 62, 43, 43, 43, 60, 91, 45, 62, 43, 60, 93] [] 50 =
      some (1, 4) ∧
    pipeCells [43, 43, 62, 43, 43, 43, 60, 91, 45, 62, 43, 60, 93] [] 50 ≠
      some (0, 5) := by
  refine ⟨by decide, by decide⟩

/-- C4 counterexample: the claim says the tree of source `+[]` (a loop
with empty body, gate cell never modified) raises the fatal divergence
error during optimization.  In the code the gate cell of an empty body
has no entry in `memory_delta` at all, so `optimize_loop` hits the
wildcard arm and returns the body unmodified; the
`unimplemented!("diverge: dead loop")` panic (modelled as `none`) is not
reached. -/
theorem C4_plus_empty_loop_not_an_error :
    optimize [Stmt.ValInc 1, Stmt.Loop []] = some ([Stmt.ValInc 1], []) ∧
    optimize [Stmt.ValInc 1, Stmt.Loop []] ≠ none :=
  ⟨rfl, fun h => Option.noConfusion h⟩

/-- C4 (amended): the fatal divergence panic is raised exactly for a
zero-net-displacement loop whose gate cell has an explicit accumulated
step `Const 0` in the offset map (i.e. the body adjusts the gate cell
with deltas summing to zero); a loop whose gate cell is never adjusted —
such as the empty-bodied loop of source `+[]` — is not an error and its
body is passed through unmodified. -/
theorem C4_divergence_needs_explicit_zero_step :
    (∀ body pd md, symbolic_execution body = .ok ⟨pd, md⟩ → pd = 0 →
      mapGet md 0 = some (.Const 0) → optimize_loop body = none) ∧
    optimize [Stmt.ValInc 1, Stmt.Loop []] = some ([Stmt.ValInc 1], []) := by
  constructor
  · intro body pd md h hpd hget
    subst hpd
    simp [optimize_loop, h, hget]
  · rfl

/-- Witness for the amended C4: the body `+-` adjusts its gate cell with
deltas summing to zero, and optimization of that loop is indeed the
fatal divergence panic. -/
theorem C4_divergence_needs_explicit_zero_step_witness :
    optimize_loop [Stmt.ValInc 1, Stmt.ValInc (-1)] = none :=
  C4_divergence_needs_explicit_zero_step.1
    [Stmt.ValInc 1, Stmt.ValInc (-1)] 0 [(0, SymExVal.Const 0)] rfl rfl rfl

/-- C7: on every successful assembly, the emitted instruction sequence,
with jump targets erased, is exactly the maximal-run folding of the
source's meaningful symbols: each maximal run of cursor-move symbols
(ignoring interleaved comment bytes) yields exactly one `CursorShift`
whose delta is the signed sum of the moves (+1 per `>`, −1 per `<`),
each maximal run of cell-arithmetic symbols exactly one `CellAdjust`
with the signed sum, and each control/IO symbol its own instruction
(`specRuns` is the spec-side folding contract). -/
theorem C7_maximal_runs_fold_to_one_instruction :
    ∀ (src : List Nat) (P : List Inst), o1compile src = .ok P →
    P.map instShape = specRuns (tokens src) := by
  intro src P h
  have hsh := o1go_shapes src [] .NoneSt [] P h (by intro i hi; cases hi)
  rw [hsh, goS_spec, mergeS_none]
  rfl

/-- Witness for C7 on the source `>><++.` (a maximal cursor run of net
+1, then a maximal arithmetic run of +2, then an output). -/
theorem C7_maximal_runs_fold_to_one_instruction_witness :
    List.map instShape [Inst.PtrInc 1, Inst.ValInc 2, Inst.Output] =
      specRuns (tokens [62, 62, 60, 43, 43, 46]) :=
  C7_maximal_runs_fold_to_one_instruction [62, 62, 60, 43, 43, 46]
    [Inst.PtrInc 1, Inst.ValInc 2, Inst.Output] rfl

/-- C6: the assembler fails with `UnmatchedCloseError` exactly when some
prefix of the source contains more loop-close than loop-open symbols
(i.e. a close is read with no pending open on the stack), fails with
`UnmatchedOpenError` exactly when no prefix has excess closes but opens
outnumber closes at end of input, succeeds on every properly nested
source, and on success the program is the flattening of a statement
tree in which every `LoopOpen` at index `i` with matching `LoopClose`
at index `j` carries target `j + 1` and the `LoopClose` carries target
`i + 1` (`matchedPairs` enumerates the structurally matching bracket
pairs). -/
theorem C6_bracket_validation :
    ∀ src : List Nat,
      (o1compile src = .error .unmatchedClose ↔
        ∃ i, ((src.take i).count 91) < ((src.take i).count 93)) ∧
      (o1compile src = .error .unmatchedOpen ↔
        ((∀ i, ((src.take i).count 93) ≤ ((src.take i).count 91)) ∧
          (src.count 93) < (src.count 91))) ∧
      (∀ P, o1compile src = .ok P →
        ∃ ss, P = flattenAt 0 ss ∧
          ∀ pr ∈ matchedPairs 0 ss,
            P[pr.1]? = some (.LoopStart (pr.2 + 1)) ∧
            P[pr.2]? = some (.LoopEnd (pr.1 + 1))) ∧
      ((∀ i, ((src.take i).count 93) ≤ ((src.take i).count 91)) →
        (src.count 93) = (src.count 91) → ∃ P, o1compile src = .ok P) := by
  intro src
  have hA : (∃ i, ((src.take i).count 91) < ((src.take i).count 93)) →
      o1compile src = .error .unmatchedClose := by
    intro h
    obtain ⟨i, hi⟩ := h
    exact o1go_close_err src [] .NoneSt [] ⟨i, by simpa using hi⟩
  have hB : (∀ i, ((src.take i).count 93) ≤ ((src.take i).count 91)) →
      (src.count 93) < (src.count 91) →
      o1compile src = .error .unmatchedOpen := by
    intro h1 h2
    exact o1go_open_err src [] .NoneSt [] (by simpa using h1)
      (by simpa using h2)
  have hC : (∀ i, ((src.take i).count 93) ≤ ((src.take i).count 91)) →
      (src.count 93) = (src.count 91) → ∃ P, o1compile src = .ok P := by
    intro h1 h2
    exact o1go_balanced_ok src [] .NoneSt [] (by simpa using h1)
      (by simpa using h2)
  refine ⟨⟨?_, hA⟩, ⟨?_, fun h => hB h.1 h.2⟩, ?_, hC⟩
  · intro h
    by_contra hno
    push_neg at hno
    have hle : (src.count 93) ≤ (src.count 91) := by
      have := hno src.length
      simpa [List.take_length] using this
    rcases lt_or_eq_of_le hle with hlt | heq2
    · rw [hB hno hlt] at h
      exact absurd h (by simp)
    · obtain ⟨P, hP⟩ := hC hno heq2
      rw [hP] at h
      exact absurd h (by simp)
  · intro h
    by_cases hv : ∃ i, ((src.take i).count 91) < ((src.take i).count 93)
    · rw [hA hv] at h
      exact absurd h (by simp)
    · push_neg at hv
      refine ⟨hv, ?_⟩
      have hle : (src.count 93) ≤ (src.count 91) := by
        have := hv src.length
        simpa [List.take_length] using this
      rcases lt_or_eq_of_le hle with hlt | heq2
      · exact hlt
      · obtain ⟨P, hP⟩ := hC hv heq2
        rw [hP] at h
        exact absurd h (by simp)
  · intro P h
    obtain ⟨ss, rfl⟩ := o1go_AsmInv src [] .NoneSt [] P h
      ⟨[], by simp [flattenAt]⟩
    refine ⟨ss, rfl, ?_⟩
    exact flattenAt_pairs 0 ss _ (fun j x hj => by simpa using hj)

/-- Witness for C6: the source `]` alone fails with the
unmatched-close error. -/
theorem C6_bracket_validation_witness :
    o1compile [93] = .error .unmatchedClose :=
  (C6_bracket_validation [93]).1.mpr ⟨1, by decide⟩

/-- C8: the claim says the generated module declares the external
zero-initializing allocator with two parameters (element count and
element size).  The code declares `calloc` with a single `i64`
parameter (`ptr_type.fn_type(&[i64_type.into()], false)`), although the
entry routine then calls it with the two constant arguments 30000 and 1
(before any statement is lowered) and does attach `noalias` to the
return value. -/
theorem C8_calloc_declared_with_one_param :
    callocDecl.params = [LType.i64] ∧
    callocDecl.params.length = 1 ∧
    callocDecl.retNoalias = true ∧
    ∀ prog, ∃ tail,
      compileEvents prog =
        .storeVar "ptr" (.constI32 0) ::
        .callFn "calloc" [.constI64 30000, .constI64 1] ::
        .storeVar "memory" .reg :: tail :=
  ⟨rfl, rfl, rfl, fun _ => ⟨_, rfl⟩⟩

/-- C9: for every loop body accepted by the symbolic execution (only
`PtrInc`/`ValInc` statements, deltas in `i32` range), the execution
reaches no `todo!()` branch of `simplify` (result is `.ok`, never the
modelled panic) and every value stored in `memory_delta` is a `Const`
equal to the 32-bit wrapping sum of the `ValInc` deltas applied at that
relative offset; in particular no `Cell` value ever appears. -/
theorem C9_symbolic_values_are_wrapped_sums :
    ∀ prog : List Stmt,
    (∀ s ∈ prog, (∃ n, s = Stmt.PtrInc n) ∨
      ∃ n, s = Stmt.ValInc n ∧ wrap32 n = n) →
    ∃ info, symbolic_execution prog = .ok info ∧
      symbolic_execution prog ≠ .panic ∧
      ∀ k v, mapGet info.memory_delta k = some v →
        v = .Const (wrap32 (offsetSum prog 0 k)) := by
  intro prog hok
  obtain ⟨pdf, md', hrun, _, h2, h3⟩ :=
    symExGo_spec prog 0 [] hok (by intro k v hk; cases hk)
  refine ⟨⟨pdf, md'⟩, hrun, show symExGo prog 0 [] ≠ SymRes.panic from by rw [hrun]; nofun, ?_⟩
  intro k v hk
  cases ht : offTouched prog 0 k with
  | true =>
    have := h2 k rfl ht
    rw [this] at hk
    cases hk
    rfl
  | false =>
    have := h3 k rfl ht
    rw [this] at hk
    cases hk

/-- Witness for C9 at the body `>+++++` (one cursor shift, one
cell-adjust of 5). -/
theorem C9_symbolic_values_are_wrapped_sums_witness :
    ∃ info, symbolic_execution [Stmt.PtrInc 1, Stmt.ValInc 5] = .ok info ∧
      symbolic_execution [Stmt.PtrInc 1, Stmt.ValInc 5] ≠ .panic ∧
      ∀ k v, mapGet info.memory_delta k = some v →
        v = .Const (wrap32 (offsetSum [Stmt.PtrInc 1, Stmt.ValInc 5] 0 k)) :=
  C9_symbolic_values_are_wrapped_sums [Stmt.PtrInc 1, Stmt.ValInc 5] (by
    intro s hs
    simp only [List.mem_cons, List.not_mem_nil, or_false] at hs
    rcases hs with rfl | rfl
    · exact Or.inl ⟨1, rfl⟩
    · exact Or.inr ⟨5, rfl, rfl⟩)

/-- C10: whenever a loop is classified as a counted loop (zero net
cursor displacement and constant gate step exactly 1), `optimize_loop`
prints a diagnostic line beginning with `step = ` on standard output —
the same stream the interpreted program's `Output` bytes go to, so the
pipeline's stdout can contain both (the diagnostics are printed during
optimization and hence precede the program's bytes): on source `+[+].`
the process stdout is the diagnostic line followed by the byte 2. -/
theorem C10_counted_loop_diagnostic :
    (∀ body pd md, symbolic_execution body = .ok ⟨pd, md⟩ → pd = 0 →
      mapGet md 0 = some (.Const 1) →
      ∃ rest, optimize_loop body = some (body, ["step = " ++ rest])) ∧
    o2MainOut [43, 91, 43, 93, 46] [] 300 =
      some [.line (diagLine 1 [.ValInc 1]), .byte 2] := by
  constructor
  · intro body pd md h hpd hget
    subst hpd
    refine ⟨toString (1 : Int) ++ (", body = " ++ Stmt.debugListStr body), ?_⟩
    simp [optimize_loop, h, hget, diagLine]
  · rfl

/-- Witness for C10: the loop body `[+]` has gate step 1 and triggers
the diagnostic. -/
theorem C10_counted_loop_diagnostic_witness :
    ∃ rest, optimize_loop [Stmt.ValInc 1] =
      some ([Stmt.ValInc 1], ["step = " ++ rest]) :=
  C10_counted_loop_diagnostic.1 [Stmt.ValInc 1] 0 [(0, SymExVal.Const 1)]
    rfl rfl rfl

/-- CLAIM C5: for every source program accepted by the assembler
(`o1::compile`) and every input stream, interpreting the statement tree
built by `o2::compile` with the recursive tree interpreter reaches
exactly the same final states (same tape, cursor, remaining input and
output bytes — in particular byte-identical output) as executing the
flat instruction sequence with the jump-based interpreter of
`o1::main`: each run succeeds, for some fuel, with a given final state
iff the other does. -/
theorem C5_tree_and_jump_interpreters_agree :
    ∀ (src : List Nat) (P : List Inst) (inp : List Nat) (s' : St),
    o1compile src = .ok P →
    ((∃ f, interpretRec f (o2compile P) (initSt inp) = .ok s') ↔
     (∃ g, flatRun P g 0 (initSt inp) = .ok s')) := by
  intro src P inp s' hok
  obtain ⟨ss, hP⟩ :=
    o1go_AsmInv src [] .NoneSt [] P hok ⟨[], by simp [flattenAt]⟩
  subst hP
  rw [o2compile_flatten]
  have hcfg : CfgRep (flattenAt 0 ss) ss [] 0 := by
    refine ⟨fun j x hj => by simpa using hj, ?_⟩
    have hlen : (0 : Nat) + flatLenL ss = (flattenAt 0 ss).length := by
      simp [flattenAt_length]
    rw [hlen]
    exact FramesRep.nil
  constructor
  · rintro ⟨f, hf⟩
    obtain ⟨n, hn⟩ := interpretRec_iterM f ss (initSt inp) s' hf []
    refine ⟨n + 0, ?_⟩
    rw [← treeRunM_flatRun (flattenAt 0 ss) (n + 0) ss [] 0 (initSt inp) hcfg]
    rw [iterM_treeRunM n ss [] (initSt inp) [] [] s' 0 hn]
    simp [treeRunM, treeStep]
  · rintro ⟨g, hg⟩
    rw [← treeRunM_flatRun (flattenAt 0 ss) g ss [] 0 (initSt inp) hcfg]
      at hg
    obtain ⟨f, hf⟩ :=
      treeRunM_interpretRec g ss [] (initSt inp) s' hg
    exact ⟨f, by simpa [decodeK] using hf⟩

/-- Witness for C5: the source `+.` assembles to
`[ValInc 1, Output]` and the equivalence applies to it on the empty
input stream. -/
theorem C5_tree_and_jump_interpreters_agree_witness :
    o1compile [43, 46] = .ok [Inst.ValInc 1, Inst.Output] ∧
    ((∃ f, interpretRec f (o2compile [Inst.ValInc 1, Inst.Output])
        (initSt []) = .ok (initSt [])) ↔
     (∃ g, flatRun [Inst.ValInc 1, Inst.Output] g 0 (initSt []) =
        .ok (initSt []))) :=
  ⟨rfl, C5_tree_and_jump_interpreters_agree [43, 46]
    [Inst.ValInc 1, Inst.Output] [] (initSt []) rfl⟩

end Sbfnj
